import Mathlib

/-!
Verification of the object-store core of the `shitgit` repository
(`src/objects.py`) against its natural-language specification.

Byte strings are modelled as `List Nat` (each element a byte value).
Python primitives that the source relies on (`bytes.find`, slicing,
indexing, `bytes.replace`, `int(...)`, `hex(...)`, `int.from_bytes`,
`int.to_bytes`) are given faithful executable models below; fallible
operations return `Except PyErr`, and loops/recursions of the source
that are not structurally decreasing are modelled with an explicit
fuel parameter (`none` = the computation did not finish within the
given fuel).
-/

/-- Error outcomes of the modelled Python code.  Distinct `raise`
sites / runtime errors of the source are mapped to distinct
constructors: `assertionError` (a failed `assert`), `indexError`
(out-of-range `bytes` indexing), `keyError` / `typeError` (dict
lookup misuse), `attributeError a` (access of an attribute `a` that
was never set), `valueError` (a failed `int(...)` conversion),
`overflowError` (a failed `int.to_bytes`), `malformedObject`
(the `Malformed object: bad length` exception of `object_read`),
`unknownType` (the `Unknown type` exception of `object_read`),
`noSuchReference n` / `ambiguousReference n cs` (the two exceptions
raised by `object_find`), and `fileNotFound` (reading a missing
object file). -/
inductive PyErr where
  | assertionError : PyErr
  | indexError : PyErr
  | keyError : PyErr
  | typeError : PyErr
  | attributeError : String → PyErr
  | valueError : PyErr
  | overflowError : PyErr
  | malformedObject : PyErr
  | unknownType : PyErr
  | noSuchReference : String → PyErr
  | ambiguousReference : String → List String → PyErr
  | fileNotFound : PyErr
deriving DecidableEq, Repr

deriving instance DecidableEq for Except

/-- Model of `raw.find(b'<single byte c>', start)` for a non-negative
`start`: the least index `i ≥ start` with `raw[i] = c`, or `-1` when
there is none (Python returns `-1` both when the byte is absent and
when `start` is past the end). -/
def pyFindN (raw : List Nat) (c : Nat) (start : Nat) : Int :=
  match List.findIdx? (fun x => x = c) (raw.drop start) with
  | some i => ((start + i : Nat) : Int)
  | none => -1

/-- Model of `raw.find(b'<c>', start)` for an arbitrary integer
`start`: Python first adds `len(raw)` to a negative start and clamps
at `0`. -/
def pyFind (raw : List Nat) (c : Nat) (start : Int) : Int :=
  if start < 0 then pyFindN raw c (max 0 (start + raw.length)).toNat
  else pyFindN raw c start.toNat

/-- Model of Python `raw[i]` on bytes: a negative index has
`len(raw)` added once; an index then out of range raises
`IndexError`. -/
def pyGet (raw : List Nat) (i : Int) : Except PyErr Nat :=
  let j : Int := if i < 0 then i + raw.length else i
  if 0 ≤ j ∧ j < raw.length then
    .ok (raw.getD j.toNat 0)
  else
    .error .indexError

/-- Model of Python slicing `raw[a:b]`: negative bounds have
`len(raw)` added once, then both bounds are clamped to
`[0, len(raw)]` and the elements at indices `a ≤ i < b` are taken. -/
def pySlice (raw : List Nat) (a b : Int) : List Nat :=
  let n : Int := raw.length
  let norm : Int → Int := fun i => if i < 0 then max 0 (i + n) else min i n
  let a2 := norm a
  let b2 := norm b
  (raw.drop a2.toNat).take (b2 - a2).toNat

/-- Model of `raw[a:]`. -/
def pySliceFrom (raw : List Nat) (a : Int) : List Nat :=
  pySlice raw a raw.length

/-- One fuel-indexed step list for `bytes.replace(old, new)`:
left-to-right, non-overlapping; at each position, if `old` is a
prefix it is replaced and the scan continues after it, otherwise one
byte is copied.  The fuel is the length of the remaining input plus
one, which is always sufficient because each step consumes at least
one input byte (the source only calls `replace` with non-empty
patterns). -/
def pyReplaceGo (old new : List Nat) : Nat → List Nat → List Nat
  | 0, s => s
  | _ + 1, [] => []
  | fuel + 1, c :: rest =>
    if old ≠ [] ∧ old.isPrefixOf (c :: rest) then
      new ++ pyReplaceGo old new fuel ((c :: rest).drop old.length)
    else
      c :: pyReplaceGo old new fuel rest

/-- Model of `s.replace(old, new)` for a non-empty `old`. -/
def pyReplace (s old new : List Nat) : List Nat :=
  pyReplaceGo old new (s.length + 1) s

/-- Big-endian decimal/hexadecimal digit values of `n` (most
significant first); `digitsBase b 0 = [0]`, matching Python's
`str(0) = "0"` and `hex(0) = "0x0"`.  Fuel-indexed so that it
reduces by kernel computation; `n + 1` fuel always suffices. -/
def digitsBaseGo (b : Nat) : Nat → Nat → List Nat
  | 0, n => [n]
  | fuel + 1, n =>
    if n < b ∨ b ≤ 1 then [n]
    else digitsBaseGo b fuel (n / b) ++ [n % b]

/-- Big-endian base-`b` digit values of `n` (non-empty). -/
def digitsBase (b n : Nat) : List Nat :=
  digitsBaseGo b (n + 1) n

/-- Model of `str(n).encode()` for a natural `n`: its ASCII decimal
digit bytes. -/
def asciiDec (n : Nat) : List Nat :=
  (digitsBase 10 n).map (fun d => d + 48)

/-- Lower-case hex digit character for a digit value. -/
def hexDigitChar (d : Nat) : Char :=
  if d < 10 then Char.ofNat (d + 48) else Char.ofNat (d + 87)

/-- Model of `hex(n)[2:]` for a non-negative `n`: minimal-length
lower-case hexadecimal with no leading zeros (`"0"` for zero). -/
def pyHexStr (n : Nat) : String :=
  String.mk ((digitsBase 16 n).map hexDigitChar)

/-- Model of `int.from_bytes(l, "big")`. -/
def fromBytesBE (l : List Nat) : Nat :=
  l.foldl (fun a b => a * 256 + b) 0

/-- Model of `n.to_bytes(20, byteorder="big")`: fails with
`OverflowError` when `n` does not fit in 20 bytes. -/
def toBytes20BE (n : Nat) : Except PyErr (List Nat) :=
  if n < 256 ^ 20 then
    .ok ((List.range 20).map (fun i => n / 256 ^ (19 - i) % 256))
  else
    .error .overflowError

/-- Is the byte an ASCII whitespace stripped by Python's `int(str)`
conversion? -/
def isPyWs (c : Nat) : Bool :=
  c = 32 ∨ c = 9 ∨ c = 10 ∨ c = 13 ∨ c = 11 ∨ c = 12

/-- Parse a non-empty all-decimal-digit byte list. -/
def decDigitsVal : List Nat → Option Nat → Option Nat
  | [], acc => acc
  | c :: rest, acc =>
    if 48 ≤ c ∧ c ≤ 57 then
      decDigitsVal rest (some ((acc.getD 0) * 10 + (c - 48)))
    else none

/-- Model of `int(raw.decode("ascii"))` on a byte list: bytes ≥ 128
fail to decode; then surrounding whitespace is stripped, an optional
sign is read, and a non-empty digit string is converted (the source
only ever reaches this with a leading space and decimal digits).
Any other shape raises `ValueError`. -/
def pyIntAscii (l : List Nat) : Except PyErr Int :=
  if l.all (fun c => c < 128) then
    let core := (l.dropWhile isPyWs).reverse.dropWhile isPyWs |>.reverse
    match core with
    | 43 :: rest =>
      match decDigitsVal rest none with
      | some n => .ok n
      | none => .error .valueError
    | 45 :: rest =>
      match decDigitsVal rest none with
      | some n => .ok (-(n : Int))
      | none => .error .valueError
    | rest =>
      match decDigitsVal rest none with
      | some n => .ok n
      | none => .error .valueError
  else .error .valueError

/-- Parse a hexadecimal digit character (both cases), as used by
`int(s, 16)`. -/
def hexCharVal (c : Char) : Option Nat :=
  if 48 ≤ c.toNat ∧ c.toNat ≤ 57 then some (c.toNat - 48)
  else if 97 ≤ c.toNat ∧ c.toNat ≤ 102 then some (c.toNat - 87)
  else if 65 ≤ c.toNat ∧ c.toNat ≤ 70 then some (c.toNat - 55)
  else none

/-- Model of `int(s, 16)` on a string (no surrounding whitespace or
sign in the source's use): fails with `ValueError` unless the string
is a non-empty run of hex digits. -/
def pyIntHex (s : String) : Except PyErr Nat :=
  let go : List Char → Option Nat → Option Nat := fun cs acc =>
    cs.foldl
      (fun a c =>
        match a, hexCharVal c with
        | some v, some d => some (v * 16 + d)
        | none, some d => some d
        | _, none => none)
      acc
  match go s.data none with
  | some n => .ok n
  | none => .error .valueError


/-!
The commit/tag field-block format (`message_parse` /
`message_serialize` in `src/objects.py`).

A parsed message is Python's `OrderedDict` whose values are either a
single byte string or (for repeated field names) a list of byte
strings.  It is modelled as an insertion-ordered association list;
assigning to an existing key keeps its position, assigning to a new
key appends at the end, exactly as for a Python dict.
-/

/-- A dict value: the source stores a scalar bytes value for a key
seen once and switches to a Python list once the key repeats. -/
inductive PyVal where
  | scalar : List Nat → PyVal
  | vlist : List (List Nat) → PyVal
deriving DecidableEq, Repr

/-- Insertion-ordered dictionary from byte-string keys to values. -/
abbrev Kvlm := List (List Nat × PyVal)

/-- First-match lookup, `dct[k]` as a query. -/
def dictGet (d : Kvlm) (k : List Nat) : Option PyVal :=
  match d.find? (fun e => e.1 = k) with
  | some e => some e.2
  | none => none

/-- Assignment `dct[k] = v`: replace in place when the key exists,
append at the end otherwise. -/
def dictSet (d : Kvlm) (k : List Nat) (v : PyVal) : Kvlm :=
  match d with
  | [] => [(k, v)]
  | e :: rest => if e.1 = k then (k, v) :: rest else e :: dictSet rest k v

/-- The add-a-field logic of `message_parse`: a fresh key stores the
scalar, a repeated key converts the scalar to a two-element list, and
further repeats append to the list. -/
def dictAdd (d : Kvlm) (k : List Nat) (v : List Nat) : Kvlm :=
  match dictGet d k with
  | some (.vlist vs) => dictSet d k (.vlist (vs ++ [v]))
  | some (.scalar w) => dictSet d k (.vlist [w, v])
  | none => dictSet d k (.scalar v)

/-- The value-end scan of `message_parse` (`while True: end =
raw.find(b'\n', end+1); if raw[end+1] != ord(' '): break`), written
as a function of the next search position `q = end + 1`.  It returns
the final `end` (an `Int`: the source's wrap-around when `find`
returns `-1` is modelled faithfully, which is also why the loop need
not terminate — hence the fuel, with `none` meaning the loop ran
longer than the fuel allows). -/
def scanEndFrom (raw : List Nat) : Nat → Nat → Option (Except PyErr Int)
  | 0, _ => none
  | fuel + 1, q =>
    let e := pyFindN raw 10 q
    match pyGet raw (e + 1) with
    | .error err => some (.error err)
    | .ok c =>
      if c = 32 then scanEndFrom raw fuel (e + 1).toNat
      else some (.ok e)

/-- Model of `message_parse(raw, start, dct)`.  The source recurses
once per field line and runs the inner value scan; both are paid for
from the same fuel.  `none` means the computation did not finish
within the fuel (for every terminating run of the source some fuel is
sufficient, and the fuel passed to the inner scan only grows the set
of terminating runs). -/
def message_parse (raw : List Nat) : Nat → Nat → Kvlm → Option (Except PyErr Kvlm)
  | 0, _, _ => none
  | fuel + 1, start, dct =>
    let spc := pyFind raw 32 start
    let nl := pyFind raw 10 start
    if spc < 0 ∨ nl < spc then
      -- base case: `assert(nl == start)`, then the message is stored
      -- under the empty key
      if nl = start then
        some (.ok (dictSet dct [] (.scalar (pySliceFrom raw (start + 1)))))
      else
        some (.error .assertionError)
    else
      let key := pySlice raw start spc
      match scanEndFrom raw fuel (start + 1) with
      | none => none
      | some (.error err) => some (.error err)
      | some (.ok e) =>
        let value := pyReplace (pySlice raw (spc + 1) e) [10, 32] [10]
        message_parse raw fuel (e + 1).toNat (dictAdd dct key value)

/-- Run `message_parse(raw)` from position 0 with an empty dict and
the standard fuel `len(raw) + 2`.  The inner scan's state (the `end`
cursor) ranges over the `len(raw) + 1` values `-1 … len(raw) - 1` and
the transition depends only on that state, so a scan that has not
exited after `len(raw) + 2` steps has revisited a state and genuinely
never exits; each outer recursion starts at least 3 bytes further
into `raw`.  Hence `none` here coincides with non-termination of the
source. -/
def parseMsg (raw : List Nat) : Option (Except PyErr Kvlm) :=
  message_parse raw (raw.length + 2) 0 []

/-- A dict value as the list Python's `message_serialize` iterates
over (`if type(value) != list: value = [value]`). -/
def valAsList : PyVal → List (List Nat)
  | .scalar v => [v]
  | .vlist vs => vs

/-- Model of `message_serialize(msg)`: emit `key SP folded-value NL`
for every non-empty key in insertion order, then a blank line and the
message (`msg[b'']`; a missing message key is a `KeyError`, a list
value there a `TypeError` of the `bytes + list` concatenation). -/
def message_serialize (d : Kvlm) : Except PyErr (List Nat) :=
  let fields :=
    d.foldl
      (fun acc e =>
        if e.1 = [] then acc
        else
          acc ++
            (valAsList e.2).foldl
              (fun a v => a ++ e.1 ++ 32 :: pyReplace v [10] [10, 32] ++ [10])
              [])
      []
  match dictGet d [] with
  | some (.scalar m) => .ok (fields ++ 10 :: m)
  | some (.vlist _) => .error .typeError
  | none => .error .keyError

-- `b"tree ab\nparent cd\nparent ef\ngpgsig x\n y\n\nmsg"`-style checks

/-!
The tree format (`GitTreeLeaf`, `tree_parse_leaf`, `tree_parse`,
`tree_serialize` in `src/objects.py`).
-/

/-- One tree entry as built by `tree_parse_leaf`: the raw mode bytes,
the raw path bytes, and the hash as the string `hex(int.from_bytes(
hashbytes, "big"))[2:]`. -/
structure GitTreeLeaf where
  mode : List Nat
  path : List Nat
  sha : String
deriving DecidableEq, Repr

/-- Model of `tree_parse_leaf(raw, start)` for a non-negative
`start`: find the space (`assert(spc - start in [5, 6])`), slice the
mode, find the NUL terminator, slice the path, and convert the next
20 bytes to a minimal-length hex string.  Returns the next position
`nt + 21` together with the leaf. -/
def tree_parse_leaf (raw : List Nat) (start : Nat) : Except PyErr (Int × GitTreeLeaf) :=
  let spc := pyFindN raw 32 start
  if spc - start = 5 ∨ spc - start = 6 then
    let mode := pySlice raw start spc
    let nt := pyFind raw 0 spc
    let path := pySlice raw (spc + 1) nt
    let sha := pyHexStr (fromBytesBE (pySlice raw (nt + 1) (nt + 21)))
    .ok (nt + 21, { mode := mode, path := path, sha := sha })
  else
    .error .assertionError

/-- The `while pos < length` loop of `tree_parse`, fuel-indexed.
Each successful `tree_parse_leaf` advances `pos` by at least 26, so
fuel `len(raw) + 1` always suffices and the loop is total. -/
def treeParseGo (raw : List Nat) : Nat → Int → List GitTreeLeaf → Option (Except PyErr (List GitTreeLeaf))
  | 0, _, _ => none
  | fuel + 1, pos, acc =>
    if pos < (raw.length : Int) then
      match tree_parse_leaf raw pos.toNat with
      | .error err => some (.error err)
      | .ok (pos2, leaf) => treeParseGo raw fuel pos2 (acc ++ [leaf])
    else
      some (.ok acc)

/-- Model of `tree_parse(raw)`. -/
def tree_parse (raw : List Nat) : Option (Except PyErr (List GitTreeLeaf)) :=
  treeParseGo raw (raw.length + 1) 0 []

/-- The per-entry body of `tree_serialize`: `mode || 0x20 || path ||
0x00 || int(sha, 16).to_bytes(20, "big")`. -/
def treeSerializeEntry (l : GitTreeLeaf) : Except PyErr (List Nat) := do
  let n ← pyIntHex l.sha
  let hb ← toBytes20BE n
  return l.mode ++ 32 :: l.path ++ 0 :: hb

/-- Serialization of a list of tree entries (the loop body of
`tree_serialize` applied to a value of `obj.items`). -/
def treeSerializeItems (ls : List GitTreeLeaf) : Except PyErr (List Nat) :=
  ls.foldlM (fun acc l => do return acc ++ (← treeSerializeEntry l)) []

/-!
The in-memory objects.  Each variant carries exactly the attributes
the source's classes ever assign: `GitBlob.deserialize` sets
`blobdata`, `GitTree.deserialize` sets `entries` (and nothing in the
source ever sets `items`, which `tree_serialize` reads), and
`GitCommit.deserialize` / `GitTag.deserialize` set `msg` (and nothing
in the source ever sets `kvlm`, which `object_find` reads).  The
never-assigned attributes are modelled as `Option` slots that
deserialization leaves at `none`; reading such a slot is Python's
`AttributeError`.
-/

/-- A constructed Git object.  `tree` carries both the `entries` slot
(set by `deserialize`) and the `items` slot (never set by the
source). -/
inductive PyObj where
  | blob : List Nat → PyObj
  | tree : Option (List GitTreeLeaf) → Option (List GitTreeLeaf) → PyObj
  | commit : Kvlm → PyObj
  | tag : Kvlm → PyObj
deriving DecidableEq, Repr

/-- The class attribute `fmt` of each object class. -/
def PyObj.fmt : PyObj → String
  | .blob _ => "blob"
  | .tree _ _ => "tree"
  | .commit _ => "commit"
  | .tag _ => "tag"

/-- The header kind bytes (`obj.fmt` as the source's bytes value). -/
def PyObj.fmtBytes : PyObj → List Nat
  | .blob _ => [98, 108, 111, 98]
  | .tree _ _ => [116, 114, 101, 101]
  | .commit _ => [99, 111, 109, 109, 105, 116]
  | .tag _ => [116, 97, 103]

/-- Reading `obj.kvlm` in `object_find`: no code in the source ever
assigns a `kvlm` attribute (the parsed mapping is stored as `msg`),
so the access raises `AttributeError` on every object. -/
def PyObj.kvlmAttr : PyObj → Except PyErr Kvlm :=
  fun _ => .error (.attributeError "kvlm")

/-- Model of `GitTree.deserialize` + construction: parse the data and
store the result in the `entries` attribute, leaving `items` unset.
`none` propagates the (impossible-within-fuel) inner fuel exhaustion
of the tree parser. -/
def gitTreeFromData (data : List Nat) : Option (Except PyErr PyObj) :=
  match tree_parse data with
  | none => none
  | some (.error err) => some (.error err)
  | some (.ok ls) => some (.ok (.tree (some ls) none))

/-- Model of `tree_serialize(obj)`: read `obj.items` (never assigned
by the source, hence `AttributeError` for every object built by
`deserialize`) and serialize the entries. -/
def tree_serialize (_entries items : Option (List GitTreeLeaf)) : Except PyErr (List Nat) :=
  match items with
  | none => .error (.attributeError "items")
  | some ls => treeSerializeItems ls

/-- Model of `obj.serialize()`: blobs return their data,
commits/tags serialize their parsed mapping, and trees run
`tree_serialize` on their attribute slots. -/
def PyObj.serialize : PyObj → Except PyErr (List Nat)
  | .blob d => .ok d
  | .tree entries items => tree_serialize entries items
  | .commit m => message_serialize m
  | .tag m => message_serialize m

/-- Round trip of claim C2, `tree encode(decode(bytes))`:
deserialize tree bytes into a `GitTree` and serialize it back. -/
def treeRoundTrip (data : List Nat) : Option (Except PyErr (List Nat)) :=
  match gitTreeFromData data with
  | none => none
  | some (.error err) => some (.error err)
  | some (.ok obj) => some obj.serialize

/-!
The content-addressable store (`object_read`, `object_write`) and
the name resolver (`object_resolve`, `object_find`).

The filesystem and the compression codec are external collaborators:
the store below maps a full hash to the already-decompressed bytes of
its object file (`zlib.decompress(open(path).read())` folded into the
lookup; zlib is symmetric, so this loses nothing), and maps a
two-character bucket name to the list of filenames in
`objects/<bucket>/` (what `repo_dir` + `os.listdir` observe).
`ref_resolve(repo, "HEAD")` is likewise folded into a single
`headSha` field, which none of the verified claims exercise.
-/

/-- The observable state of the object directory. -/
structure Store where
  buckets : List (String × List String)
  objects : List (String × List Nat)
  headSha : String

/-- Dispatch of `object_read` on the header kind: run the selected
class constructor, i.e. the matching `deserialize`, on the payload.
The outer `Option` propagates parser fuel exhaustion (divergence). -/
def decodePayload (fmtB : List Nat) (payload : List Nat) : Option (Except PyErr PyObj) :=
  if fmtB = [99, 111, 109, 109, 105, 116] then
    match parseMsg payload with
    | none => none
    | some (.error e) => some (.error e)
    | some (.ok d) => some (.ok (.commit d))
  else if fmtB = [116, 114, 101, 101] then
    gitTreeFromData payload
  else if fmtB = [116, 97, 103] then
    -- the `GitTag` class in scope at the dispatch is the second one,
    -- a subclass of `GitCommit`, so it parses like a commit
    match parseMsg payload with
    | none => none
    | some (.error e) => some (.error e)
    | some (.ok d) => some (.ok (.tag d))
  else if fmtB = [98, 108, 111, 98] then
    some (.ok (.blob payload))
  else
    some (.error .unknownType)

/-- Model of the body of `object_read` on the decompressed bytes
`raw`: find the space, slice the kind, find the NUL after the space,
convert `raw[x:y]` (which starts at the space — `int()` tolerates
the leading blank) to the declared size, compare it against
`len(raw) - y - 1`, then dispatch on the kind. -/
def object_read_raw (raw : List Nat) : Option (Except PyErr PyObj) :=
  let x := pyFind raw 32 0
  let fmtB := pySlice raw 0 x
  let y := pyFind raw 0 x
  match pyIntAscii (pySlice raw x y) with
  | .error e => some (.error e)
  | .ok size =>
    if size ≠ (raw.length : Int) - y - 1 then
      some (.error .malformedObject)
    else
      decodePayload fmtB (pySliceFrom raw (y + 1))

/-- Model of `object_read(repo, sha)`: look the object file up (a
missing file is `FileNotFoundError`), then read it. -/
def object_read (st : Store) (sha : String) : Option (Except PyErr PyObj) :=
  match st.objects.find? (fun e => e.1 = sha) with
  | none => some (.error .fileNotFound)
  | some e => object_read_raw e.2

/-- The canonical bytes `object_write` hashes: `fmt || 0x20 ||
str(len(data)) || 0x00 || data`. -/
def mkStoredBytes (fmtB data : List Nat) : List Nat :=
  fmtB ++ 32 :: asciiDec data.length ++ 0 :: data

/-- Model of `object_write(obj, actually_write)`, parameterized by
the external SHA-1 collaborator `sha1hex` (`hashlib.sha1(..).
hexdigest()`).  Returns the hash together with the list of store
writes performed; each write records the full canonical byte sequence
that is compressed and persisted (the path is derived from the hash
of those same bytes, and zlib is symmetric, so this is the whole
observable effect). -/
def object_write (sha1hex : List Nat → String) (obj : PyObj)
    (actually_write : Bool) : Except PyErr (String × List (List Nat)) :=
  match obj.serialize with
  | .error e => .error e
  | .ok data =>
    let res := mkStoredBytes obj.fmtBytes data
    let sha := sha1hex res
    .ok (sha, if actually_write then [res] else [])

/-- Is the character stripped by Python's `str.strip()`? -/
def wsChar (c : Char) : Bool :=
  c.toNat = 32 ∨ c.toNat = 9 ∨ c.toNat = 10 ∨ c.toNat = 13 ∨
    c.toNat = 11 ∨ c.toNat = 12

/-- Model of Python `name.strip()`. -/
def pyStrip (s : String) : String :=
  String.mk (((s.data.dropWhile wsChar).reverse.dropWhile wsChar).reverse)

/-- Model of Python `str.lower()` on one character (ASCII case, the
only one hash names exercise). -/
def pyLowerChar (c : Char) : Char :=
  if 65 ≤ c.toNat ∧ c.toNat ≤ 90 then Char.ofNat (c.toNat + 32) else c

/-- Model of Python `name.lower()`. -/
def pyLower (s : String) : String :=
  String.mk (s.data.map pyLowerChar)

/-- Model of Python `name[0:n]`. -/
def pyTake (s : String) (n : Nat) : String :=
  String.mk (s.data.take n)

/-- Model of Python `name[n:]`. -/
def pyDrop (s : String) (n : Nat) : String :=
  String.mk (s.data.drop n)

/-- Prefix test on character lists. -/
def charsIsPrefix : List Char → List Char → Bool
  | [], _ => true
  | _ :: _, [] => false
  | a :: as, b :: bs => a = b ∧ charsIsPrefix as bs

/-- Model of Python `f.startswith(rem)`. -/
def pyStartsWith (f rem : String) : Bool :=
  charsIsPrefix rem.data f.data

/-- Is the character accepted by the source's hash regular expression
character class `[0-9A-Fa-f]`? -/
def isHexDigitChar (c : Char) : Bool :=
  (48 ≤ c.toNat ∧ c.toNat ≤ 57) ∨ (65 ≤ c.toNat ∧ c.toNat ≤ 70) ∨
    (97 ≤ c.toNat ∧ c.toNat ≤ 102)

/-- Model of `re.compile(r"^[0-9A-Fa-f]{1,16}$").match(name)` being
truthy: the whole name is 1 to 16 hex characters.  Note the source's
upper bound really is 16, not 40.  (Python's `$` would also accept a
single trailing newline; no name considered here carries one.) -/
def hashREmatch (name : String) : Bool :=
  1 ≤ name.length ∧ name.length ≤ 16 ∧ name.data.all isHexDigitChar

/-- Model of `object_resolve(repo, name)`.  `none` is Python's
`None` (the empty-name abort); every other outcome is the candidate
list.  The 40-character branch of the source is kept verbatim even
though the {1,16} quantifier of the regular expression makes it
unreachable. -/
def object_resolve (st : Store) (name : String) : Option (List String) :=
  if pyStrip name = "" then
    none
  else if name = "HEAD" then
    some [st.headSha]
  else if hashREmatch name then
    if name.length = 40 then
      some [pyLower name]
    else if 4 ≤ name.length then
      let nameL := pyLower name
      let bucket := pyTake nameL 2
      match st.buckets.find? (fun e => e.1 = bucket) with
      | none => some []
      | some e =>
        let rem := pyDrop nameL 2
        some ((e.2.filter (fun f => pyStartsWith f rem)).map (fun f => bucket ++ f))
    else
      some []
  else
    some []

/-- The `while True` follow loop of `object_find`, fuel-indexed.
`ok none` is the source's `return None` ("not found"); reading
`obj.kvlm` raises `AttributeError` (see `PyObj.kvlmAttr`), so the
substitution branches error out before the recursive step is ever
reached. -/
def objectFindLoop (st : Store) (fmt : String) (follow : Bool) :
    Nat → String → Option (Except PyErr (Option String))
  | 0, _ => none
  | fuel + 1, sha =>
    match object_read st sha with
    | none => none
    | some (.error e) => some (.error e)
    | some (.ok obj) =>
      if obj.fmt = fmt then
        some (.ok (some sha))
      else if ¬ follow then
        some (.ok none)
      else if obj.fmt = "tag" then
        match obj.kvlmAttr with
        | .error e => some (.error e)
        | .ok d =>
          match dictGet d [111, 98, 106, 101, 99, 116] with
          | some (.scalar v) => objectFindLoop st fmt follow fuel (String.mk (v.map Char.ofNat))
          | _ => some (.error .keyError)
      else if obj.fmt = "commit" ∧ fmt = "tree" then
        match obj.kvlmAttr with
        | .error e => some (.error e)
        | .ok d =>
          match dictGet d [116, 114, 101, 101] with
          | some (.scalar v) => objectFindLoop st fmt follow fuel (String.mk (v.map Char.ofNat))
          | _ => some (.error .keyError)
      else
        some (.ok none)

/-- Model of `object_find(repo, name, fmt, follow)`. -/
def object_find (st : Store) (name : String) (fmt : Option String)
    (follow : Bool) : Option (Except PyErr (Option String)) :=
  match object_resolve st name with
  | none => some (.error (.noSuchReference name))
  | some [] => some (.error (.noSuchReference name))
  | some [sha] =>
    match fmt with
    | none => some (.ok (some sha))
    | some f => objectFindLoop st f follow (st.objects.length + 2) sha
  | some cands => some (.error (.ambiguousReference name cands))

/-- Byte values of an ASCII string, for building concrete inputs. -/
def strBytes (s : String) : List Nat :=
  s.data.map Char.toNat

/-- Divergence witness input for claim C8: the bytes of `b" a\n b"`. -/
def exRawLoop : List Nat := [32, 97, 10, 32, 98]

/-- Store for claim C9 (short-hash resolution): exactly two objects,
with hashes `abc123…0` and `abc456…0` (34 trailing zeros), living as
the files `c123…0` and `c456…0` in bucket `ab`.  Resolution never
reads object contents, so the content map is empty. -/
def exStoreC9 : Store :=
  { buckets := [("ab", ["c1230000000000000000000000000000000000",
                        "c4560000000000000000000000000000000000"])],
    objects := [],
    headSha := "" }

/-- Second store for claim C9: two objects sharing the 4-character
prefix `abcd`, so that a legal-length short hash is ambiguous. -/
def exStoreC9b : Store :=
  { buckets := [("ab", ["cd110000000000000000000000000000000000",
                        "cd220000000000000000000000000000000000"])],
    objects := [],
    headSha := "" }

/-- The hash of the tag object in the claim C6 store. -/
def exTagSha : String := "abcd000000000000000000000000000000000000"

/-- Payload of the stored tag object of claim C6:
`b"object 1111…1\n\ntagged"` — an `object` field holding a
40-character target hash, a blank line, and a message. -/
def exTagPayload : List Nat :=
  strBytes "object " ++ strBytes "1111111111111111111111111111111111111111" ++
    (10 :: 10 :: strBytes "tagged")

/-- Store for claim C6: one stored tag object reachable through the
short hash `abcd`.  The stored bytes are the canonical encoding
`b"tag " ++ str(len) ++ b"\x00" ++ payload`. -/
def exStoreC6 : Store :=
  { buckets := [("ab", ["cd000000000000000000000000000000000000"])],
    objects := [(exTagSha, mkStoredBytes [116, 97, 103] exTagPayload)],
    headSha := "" }

/-!
Well-formedness of commit/tag field-block bytes (for claim C3).  A
canonical field block is a sequence of lines `key SP foldedvalue NL`
followed by a blank line and the raw message.  Inside a folded value
every newline byte is immediately followed by a space — that is
exactly the condition under which the value scan of `message_parse`
stops at the line's own terminating newline.
-/

/-- Is every newline byte of the list immediately followed by a
space (in particular, the list does not end in a newline)? -/
def wfFolded : List Nat → Bool
  | [] => true
  | [c] => c ≠ 10
  | c :: c2 :: r =>
    if c = 10 then c2 = 32 && wfFolded r
    else wfFolded (c2 :: r)

/-- One serialized field line: `key || 0x20 || foldedvalue || 0x0A`. -/
def renderLine (k f : List Nat) : List Nat :=
  k ++ 32 :: f ++ [10]

/-- A whole canonical field block: the lines, a blank line, and the
message bytes. -/
def renderKvlm (lines : List (List Nat × List Nat)) (msg : List Nat) : List Nat :=
  (lines.map (fun kf => renderLine kf.1 kf.2)).flatten ++ 10 :: msg

/-- Flatten a grouped description (each field name with its block of
consecutive folded values) into the line list. -/
def groupedLines (gs : List (List Nat × List (List Nat))) : List (List Nat × List Nat) :=
  gs.flatMap (fun g => g.2.map (fun f => (g.1, f)))

/-- The dict value `message_parse` builds for one key from its
consecutive occurrences: a scalar for a single occurrence, the
accumulated list otherwise. -/
def mkVal (vs : List (List Nat)) : PyVal :=
  match vs with
  | [v] => .scalar v
  | vs => .vlist vs

/-- The mapping `message_parse` produces on a canonical grouped
field block: one entry per group, in order, holding the unfolded
values, then the message under the empty key. -/
def groupedDict (gs : List (List Nat × List (List Nat))) (msg : List Nat) : Kvlm :=
  (gs.map (fun g => (g.1, mkVal (g.2.map (fun f => pyReplace f [10, 32] [10]))))) ++
    [([], .scalar msg)]

/-- The keys of a dict, in order. -/
def dictKeys (d : Kvlm) : List (List Nat) :=
  d.map Prod.fst

/-- A legal field name: non-empty, no space, no newline. -/
def wfKey (k : List Nat) : Prop :=
  k ≠ [] ∧ 32 ∉ k ∧ 10 ∉ k

instance (k : List Nat) : Decidable (wfKey k) := by
  unfold wfKey
  exact inferInstance

/-!
End of the embedding's definitions.  Everything below is sanity
checks and the theorems settling the claims.
-/

-- sanity checks of the Python-primitive models against Python behaviour
example : pyFind [49, 48, 32, 97] 32 0 = 2 := by decide
example : pyFind [49, 48, 32, 97] 0 0 = -1 := by decide
example : pySlice [1, 2, 3, 4, 5] 1 3 = [2, 3] := by decide
example : pySlice [1, 2, 3, 4, 5] 2 (-1) = [3, 4] := by decide
example : pyGet [5, 6, 7] (-1) = .ok 7 := by decide
example : pyGet [5, 6, 7] 3 = .error .indexError := by decide
example : pyReplace [10, 32, 97, 10, 32] [10, 32] [10] = [10, 97, 10] := by decide
example : pyReplace [97, 10, 98] [10] [10, 32] = [97, 10, 32, 98] := by decide
example : asciiDec 120 = [49, 50, 48] := by decide
example : pyHexStr 0 = "0" := by decide
example : pyHexStr 43981 = "abcd" := by decide
example : fromBytesBE [1, 0] = 256 := by decide
example : pyIntAscii [32, 49, 50] = .ok 12 := by decide
example : pyIntHex "ff" = .ok 255 := by decide


-- sanity checks of the kvlm parser/serializer on small inputs
example :
    parseMsg [107, 32, 118, 10, 10, 109] =
      some (.ok [([107], .scalar [118]), ([], .scalar [109])]) := by decide

example :
    parseMsg [107, 32, 118, 10, 107, 32, 119, 10, 10, 109] =
      some (.ok [([107], .vlist [[118], [119]]), ([], .scalar [109])]) := by decide

-- folded value: `k v\n w\n\nm` parses to value `v\nw`
example :
    parseMsg [107, 32, 118, 10, 32, 119, 10, 10, 109] =
      some (.ok [([107], .scalar [118, 10, 119]), ([], .scalar [109])]) := by decide

-- message-only input starting with a blank line
example : parseMsg [10, 109] = some (.ok [([], .scalar [109])]) := by decide

example :
    message_serialize [([107], .scalar [118, 10, 119]), ([], .scalar [109])] =
      .ok [107, 32, 118, 10, 32, 119, 10, 10, 109] := by decide

/-!
Claim C8: totality of `message_parse`.

On the input `b" a\n b"` (bytes `[32, 97, 10, 32, 98]`) the value
scan never exits: from search position 1 it finds the newline at
index 2, sees the space at index 3 and continues from position 3;
there it finds no newline, `find` returns `-1`, and the source then
tests `raw[-1 + 1] = raw[0]`, which is again a space, so the scan
continues from position 0 — an infinite loop between search
positions 3 and 0.  The lemmas below establish this for every fuel
value. -/

lemma scanEndFrom_exRawLoop_cycle (m : Nat) :
    scanEndFrom exRawLoop m 3 = none ∧ scanEndFrom exRawLoop m 0 = none := by
  induction m with
  | zero => exact ⟨rfl, rfl⟩
  | succ m ih =>
    have h3 : pyFindN exRawLoop 10 3 = -1 := by decide
    have h0 : pyFindN exRawLoop 10 0 = 2 := by decide
    have g0 : pyGet exRawLoop (-1 + 1) = .ok 32 := by decide
    have g3 : pyGet exRawLoop (2 + 1) = .ok 32 := by decide
    constructor
    · show scanEndFrom exRawLoop (m + 1) 3 = none
      rw [scanEndFrom, h3, g0]
      simpa using ih.2
    · show scanEndFrom exRawLoop (m + 1) 0 = none
      rw [scanEndFrom, h0, g3]
      simpa using ih.1

lemma scanEndFrom_exRawLoop_one (m : Nat) :
    scanEndFrom exRawLoop m 1 = none := by
  cases m with
  | zero => rfl
  | succ m =>
    have h1 : pyFindN exRawLoop 10 1 = 2 := by decide
    have g3 : pyGet exRawLoop (2 + 1) = .ok 32 := by decide
    rw [scanEndFrom, h1, g3]
    simpa using (scanEndFrom_exRawLoop_cycle m).1

/-- `message_parse` diverges on `b" a\n b"`: no amount of fuel makes
it return. -/
lemma message_parse_diverges (n : Nat) (dct : Kvlm) :
    message_parse exRawLoop n 0 dct = none := by
  cases n with
  | zero => rfl
  | succ n =>
    have hspc : pyFind exRawLoop 32 0 = 0 := by decide
    have hnl : pyFind exRawLoop 10 0 = 2 := by decide
    rw [message_parse]
    simp only [Nat.cast_zero]
    rw [hspc, hnl]
    have hcond : ¬ ((0 : Int) < 0 ∨ (2 : Int) < 0) := by decide
    rw [if_neg hcond]
    have := scanEndFrom_exRawLoop_one n
    simp [this]

/-- Claim C8, counterexample.  The claim states that commit/tag
field-block decoding is total: for every input byte sequence
`message_parse` either returns a parsed mapping or fails with a
distinguishable error, never failing to terminate.  This is false:
on `b" a\n b"` no amount of fuel makes the parse finish — the value
scan cycles forever between search positions 3 and 0 via the
`find = -1` wrap-around. -/
theorem message_parse_not_total :
    ¬ ∃ n : Nat, message_parse exRawLoop n 0 [] ≠ none := by
  intro h
  obtain ⟨n, hn⟩ := h
  exact hn (message_parse_diverges n [])

/-- Claim C8, amended.  `message_parse` is not total: it diverges on
`b" a\n b"`.  On every input where it terminates it either returns a
mapping or fails with a distinguishable error and never reads past
the end of the input (an out-of-range access is raised as
`IndexError`); in particular, on truncated input lacking a blank-line
message boundary (`b"k v"`) it fails with the assertion error of the
base case, and on input ending exactly at a field's terminating
newline (`b"k v\n"`) it fails with `IndexError` from the
`raw[end+1]` test — in both cases a distinguishable error rather
than a wrong result. -/
theorem message_parse_partiality :
    (∀ (n : Nat) (dct : Kvlm), message_parse exRawLoop n 0 dct = none) ∧
    parseMsg [107, 32, 118] = some (.error .assertionError) ∧
    parseMsg [107, 32, 118, 10] = some (.error .indexError) := by
  refine ⟨fun n dct => message_parse_diverges n dct, ?_, ?_⟩
  · decide
  · decide

/-!
Positional lemmas for the Python primitives: how `find`, indexing
and slicing behave at a position `q` described by `raw.drop q`.
-/

lemma findIdx_first (g : List Nat) (c : Nat) (t : List Nat) (hg : c ∉ g) :
    List.findIdx? (fun x => x = c) (g ++ c :: t) = some g.length := by
  induction g with
  | nil => simp
  | cons a g ih =>
    have ha : a ≠ c := by
      intro h
      exact hg (h ▸ List.mem_cons_self a g)
    have ih2 := ih (fun h => hg (List.mem_cons_of_mem a h))
    simp [List.findIdx?_cons, ha, ih2]

lemma pyFindN_spec (raw : List Nat) (q : Nat) (g t : List Nat) (c : Nat)
    (hdrop : raw.drop q = g ++ c :: t) (hg : c ∉ g) :
    pyFindN raw c q = ((q + g.length : Nat) : Int) := by
  unfold pyFindN
  rw [hdrop, findIdx_first g c t hg]

lemma pyFindN_not_found (raw : List Nat) (q : Nat) (c : Nat)
    (hdrop : c ∉ raw.drop q) : pyFindN raw c q = -1 := by
  unfold pyFindN
  have : List.findIdx? (fun x => x = c) (raw.drop q) = none := by
    rw [List.findIdx?_eq_none_iff]
    intro x hx
    simp only [decide_eq_false_iff_not]
    intro h
    exact hdrop (h ▸ hx)
  rw [this]

lemma drop_lt_length (raw : List Nat) (q : Nat) (c : Nat) (t : List Nat)
    (hdrop : raw.drop q = c :: t) : q < raw.length := by
  by_contra h
  rw [List.drop_eq_nil_of_le (by omega)] at hdrop
  cases hdrop

lemma pyGet_spec (raw : List Nat) (q : Nat) (c : Nat) (t : List Nat)
    (hdrop : raw.drop q = c :: t) : pyGet raw (q : Nat) = .ok c := by
  have hq : q < raw.length := drop_lt_length raw q c t hdrop
  unfold pyGet
  have h0 : ¬ ((q : Int) < 0) := by omega
  simp only [h0, if_false]
  have hcond : (0 : Int) ≤ (q : Nat) ∧ ((q : Nat) : Int) < raw.length := by
    constructor
    · omega
    · exact_mod_cast hq
  rw [if_pos hcond]
  have : raw.getD ((q : Int)).toNat 0 = c := by
    have ht : ((q : Int)).toNat = q := by omega
    rw [ht]
    have hget : raw[q]? = some c := by
      have := List.getElem?_drop raw q 0
      rw [hdrop] at this
      simpa using this.symm
    simp [List.getD_eq_getElem?_getD, hget]
  rw [this]

lemma pySlice_spec (raw : List Nat) (a : Nat) (x t : List Nat)
    (hdrop : raw.drop a = x ++ t) :
    pySlice raw (a : Nat) ((a + x.length : Nat) : Int) = x := by
  have hlen : raw.length - a = x.length + t.length := by
    have := congrArg List.length hdrop
    simpa using this
  unfold pySlice
  by_cases ha : a ≤ raw.length
  · have hx : a + x.length ≤ raw.length := by omega
    have h1 : ¬ (((a : Nat) : Int) < 0) := by omega
    have h2 : ¬ (((a + x.length : Nat) : Int) < 0) := by omega
    simp only [h1, h2, if_false]
    have e1 : min ((a : Nat) : Int) (raw.length : Int) = (a : Nat) := by omega
    have e2 :
        min ((a + x.length : Nat) : Int) (raw.length : Int) = ((a + x.length : Nat) : Int) := by
      omega
    rw [e1, e2]
    have e3 : (((a + x.length : Nat) : Int) - ((a : Nat) : Int)).toNat = x.length := by omega
    have e4 : (((a : Nat) : Int)).toNat = a := by omega
    rw [e3, e4, hdrop]
    exact List.take_left x t
  · have hx : x = [] := by
      have : raw.drop a = [] := List.drop_eq_nil_of_le (by omega)
      rw [this] at hdrop
      cases x with
      | nil => rfl
      | cons y ys => cases hdrop
    subst hx
    have h1 : ¬ (((a : Nat) : Int) < 0) := by omega
    simp only [h1, if_false]
    have e1 : min ((a : Nat) : Int) (raw.length : Int) = (raw.length : Int) := by
      simp only [List.length_nil] at hlen
      omega
    have e2 : min ((a + 0 : Nat) : Int) (raw.length : Int) = (raw.length : Int) := by
      simp only [List.length_nil] at hlen
      omega
    simp only [List.length_nil]
    rw [e2, e1]
    simp

lemma pySliceFrom_spec (raw : List Nat) (a : Nat) (x : List Nat)
    (hdrop : raw.drop a = x) : pySliceFrom raw (a : Nat) = x := by
  have h := pySlice_spec raw a x [] (by simpa using hdrop)
  have hlen : a + x.length = raw.length ∨ x = [] := by
    by_cases ha : a ≤ raw.length
    · left
      have := congrArg List.length hdrop
      simp at this
      omega
    · right
      have : raw.drop a = [] := List.drop_eq_nil_of_le (by omega)
      rw [this] at hdrop
      exact hdrop.symm
  unfold pySliceFrom
  rcases hlen with h1 | h1
  · rw [← h]
    congr 1
    exact_mod_cast h1.symm
  · subst h1
    unfold pySlice
    have hb : ¬ ((raw.length : Int) < 0) := by omega
    simp only [hb, if_false]
    by_cases ha2 : ((a : Nat) : Int) < 0
    · omega
    · simp only [ha2, if_false]
      have : min ((raw.length : Nat) : Int) ((raw.length : Nat) : Int) = (raw.length : Int) := by
        omega
      simp only [min_self]
      have hge : a ≥ raw.length := by
        by_contra hc
        have hd := congrArg List.length hdrop
        simp at hd
        omega
      have e1 : min ((a : Nat) : Int) ((raw.length : Nat) : Int) = (raw.length : Int) := by
        omega
      rw [e1]
      simp

/-!
Arithmetic lemmas about the digit conversions.
-/

lemma digitsBaseGo_ne_nil (b : Nat) : ∀ fuel n, digitsBaseGo b fuel n ≠ [] := by
  intro fuel n
  cases fuel with
  | zero => simp [digitsBaseGo]
  | succ fuel =>
    rw [digitsBaseGo]
    split
    · simp
    · simp

lemma digitsBaseGo_spec (b : Nat) (hb : 2 ≤ b) :
    ∀ fuel n, n < fuel →
      (digitsBaseGo b fuel n).foldl (fun a d => a * b + d) 0 = n ∧
      (∀ d ∈ digitsBaseGo b fuel n, d < b) ∧
      (∀ k, 1 ≤ k → n < b ^ k → (digitsBaseGo b fuel n).length ≤ k) := by
  intro fuel
  induction fuel with
  | zero =>
    intro n hn
    omega
  | succ fuel ih =>
    intro n hn
    by_cases hsmall : n < b
    · have he : digitsBaseGo b (fuel + 1) n = [n] := by
        rw [digitsBaseGo]
        rw [if_pos (Or.inl hsmall)]
      refine ⟨by simp [he], ?_, ?_⟩
      · intro d hd
        rw [he] at hd
        simp at hd
        omega
      · intro k hk _
        simp [he]
        omega
    · have hcond : ¬ (n < b ∨ b ≤ 1) := by omega
      have he : digitsBaseGo b (fuel + 1) n =
          digitsBaseGo b fuel (n / b) ++ [n % b] := by
        conv_lhs => rw [digitsBaseGo]
        rw [if_neg hcond]
      have hm : n / b < fuel := by
        have h1 : n / b < n := Nat.div_lt_self (by omega) (by omega)
        omega
      obtain ⟨ihv, ihd, ihl⟩ := ih (n / b) hm
      have hmod : n % b < b := Nat.mod_lt n (by omega)
      refine ⟨?_, ?_, ?_⟩
      · rw [he, List.foldl_append]
        simp only [List.foldl_cons, List.foldl_nil, ihv]
        have h2 := Nat.div_add_mod n b
        rw [Nat.mul_comm] at h2
        exact h2
      · rw [he]
        intro d hd
        rcases List.mem_append.mp hd with h | h
        · exact ihd d h
        · simp at h
          omega
      · intro k hk hnk
        rw [he]
        simp only [List.length_append, List.length_singleton]
        cases k with
        | zero => omega
        | succ k2 =>
          cases k2 with
          | zero =>
            rw [pow_one] at hnk
            omega
          | succ k3 =>
            have hdiv : n / b < b ^ (k3 + 1) := by
              have hx : n < b * b ^ (k3 + 1) := by
                rw [← pow_succ']
                exact hnk
              exact Nat.div_lt_of_lt_mul hx
            have := ihl (k3 + 1) (by omega) hdiv
            omega

lemma digitsBase_val (b : Nat) (hb : 2 ≤ b) (n : Nat) :
    (digitsBase b n).foldl (fun a d => a * b + d) 0 = n :=
  (digitsBaseGo_spec b hb (n + 1) n (by omega)).1

lemma digitsBase_lt (b : Nat) (hb : 2 ≤ b) (n : Nat) :
    ∀ d ∈ digitsBase b n, d < b :=
  (digitsBaseGo_spec b hb (n + 1) n (by omega)).2.1

lemma digitsBase_length (b : Nat) (hb : 2 ≤ b) (n k : Nat) (hk : 1 ≤ k)
    (hn : n < b ^ k) : (digitsBase b n).length ≤ k :=
  (digitsBaseGo_spec b hb (n + 1) n (by omega)).2.2 k hk hn

lemma digitsBase_ne_nil (b n : Nat) : digitsBase b n ≠ [] :=
  digitsBaseGo_ne_nil b (n + 1) n

lemma asciiDec_range (n : Nat) : ∀ d ∈ asciiDec n, 48 ≤ d ∧ d ≤ 57 := by
  intro d hd
  unfold asciiDec at hd
  obtain ⟨v, hv, he⟩ := List.mem_map.mp hd
  have := digitsBase_lt 10 (by omega) n v hv
  omega

lemma asciiDec_ne_nil (n : Nat) : asciiDec n ≠ [] := by
  unfold asciiDec
  simp [digitsBase_ne_nil]

lemma decDigitsVal_digits (ds : List Nat) (hds : ∀ d ∈ ds, d < 10) :
    ∀ v, decDigitsVal (ds.map (fun d => d + 48)) (some v) =
      some (ds.foldl (fun a d => a * 10 + d) v) := by
  induction ds with
  | nil => intro v; rfl
  | cons d ds ih =>
    intro v
    have hdlt : d < 10 := hds d (List.mem_cons_self d ds)
    have hcond : 48 ≤ d + 48 ∧ d + 48 ≤ 57 := by omega
    simp only [List.map_cons, decDigitsVal, if_pos hcond]
    have he : d + 48 - 48 = d := by omega
    rw [he]
    have := ih (fun x hx => hds x (List.mem_cons_of_mem d hx)) (v * 10 + d)
    simpa using this

lemma decDigitsVal_digits_none (ds : List Nat) (hne : ds ≠ [])
    (hds : ∀ d ∈ ds, d < 10) :
    decDigitsVal (ds.map (fun d => d + 48)) none =
      some (ds.foldl (fun a d => a * 10 + d) 0) := by
  cases ds with
  | nil => exact absurd rfl hne
  | cons d ds2 =>
    have hdlt : d < 10 := hds d (List.mem_cons_self d ds2)
    have hcond : 48 ≤ d + 48 ∧ d + 48 ≤ 57 := by omega
    simp only [List.map_cons, decDigitsVal, if_pos hcond, Option.getD_none]
    have he : 0 * 10 + (d + 48 - 48) = d := by omega
    rw [he]
    have := decDigitsVal_digits ds2
      (fun x hx => hds x (List.mem_cons_of_mem d hx)) d
    rw [this]
    simp

/-- The `int(raw[x:y].decode("ascii"))` conversion of `object_read`
on the header slice it actually receives — a space followed by the
decimal digits of the declared length — recovers that length. -/
lemma pyIntAscii_header (n : Nat) : pyIntAscii (32 :: asciiDec n) = .ok (n : Int) := by
  have hrange : ∀ d ∈ asciiDec n, 48 ≤ d ∧ d ≤ 57 := asciiDec_range n
  have hne : asciiDec n ≠ [] := asciiDec_ne_nil n
  have hall : (32 :: asciiDec n).all (fun c => c < 128) = true := by
    simp only [List.all_cons, Bool.and_eq_true, decide_eq_true_eq]
    refine ⟨by omega, ?_⟩
    rw [List.all_eq_true]
    intro d hd
    have := hrange d hd
    simp only [decide_eq_true_eq]
    omega
  have hnotws : ∀ d ∈ asciiDec n, isPyWs d = false := by
    intro d hd
    have := hrange d hd
    unfold isPyWs
    simp only [decide_eq_false_iff_not]
    omega
  have hform : decDigitsVal (asciiDec n) none = some n := by
    have h1 := decDigitsVal_digits_none (digitsBase 10 n)
      (digitsBase_ne_nil 10 n) (digitsBase_lt 10 (by omega) n)
    have h2 := digitsBase_val 10 (by omega) n
    rw [h2] at h1
    exact h1
  unfold pyIntAscii
  rw [if_pos hall]
  have hdw : (32 :: asciiDec n).dropWhile isPyWs = asciiDec n := by
    have h32 : isPyWs 32 = true := by decide
    rw [List.dropWhile_cons, if_pos h32]
    cases h : asciiDec n with
    | nil => simp
    | cons a l =>
      have ha := hnotws a (by rw [h]; exact List.mem_cons_self a l)
      rw [List.dropWhile_cons, ha]
      simp
  have hdw2 : (asciiDec n).reverse.dropWhile isPyWs = (asciiDec n).reverse := by
    cases h : (asciiDec n).reverse with
    | nil => simp
    | cons a l =>
      have ha : a ∈ asciiDec n := by
        have hmem : a ∈ (asciiDec n).reverse := by
          rw [h]
          exact List.mem_cons_self a l
        exact List.mem_reverse.mp hmem
      rw [List.dropWhile_cons, hnotws a ha]
      simp
  simp only [hdw, hdw2, List.reverse_reverse]
  split
  · rename_i rest heq
    exfalso
    have h43 : (43 : Nat) ∈ asciiDec n := by
      rw [heq]
      exact List.mem_cons_self 43 rest
    have := hrange 43 h43
    omega
  · rename_i rest heq
    exfalso
    have h45 : (45 : Nat) ∈ asciiDec n := by
      rw [heq]
      exact List.mem_cons_self 45 rest
    have := hrange 45 h45
    omega
  · rw [hform]

lemma foldl_bytes_bound : ∀ (l : List Nat) (a : Nat), (∀ x ∈ l, x < 256) →
    l.foldl (fun a b => a * 256 + b) a < (a + 1) * 256 ^ l.length := by
  intro l
  induction l with
  | nil =>
    intro a _
    simp
  | cons c t ih =>
    intro a hl
    have hc : c < 256 := hl c (List.mem_cons_self c t)
    have ht := ih (a * 256 + c) (fun x hx => hl x (List.mem_cons_of_mem c hx))
    simp only [List.foldl_cons, List.length_cons]
    calc t.foldl (fun a b => a * 256 + b) (a * 256 + c)
        < (a * 256 + c + 1) * 256 ^ t.length := ht
      _ ≤ ((a + 1) * 256) * 256 ^ t.length := by
          have : a * 256 + c + 1 ≤ (a + 1) * 256 := by nlinarith
          exact Nat.mul_le_mul_right _ this
      _ = (a + 1) * 256 ^ (t.length + 1) := by ring

lemma fromBytesBE_lt (l : List Nat) (h : ∀ x ∈ l, x < 256) :
    fromBytesBE l < 256 ^ l.length := by
  have := foldl_bytes_bound l 0 h
  unfold fromBytesBE
  omega

lemma fromBytesBE_cons_zero (t : List Nat) : fromBytesBE (0 :: t) = fromBytesBE t := by
  simp [fromBytesBE]

lemma pyHexStr_length_le (n k : Nat) (hk : 1 ≤ k) (hn : n < 16 ^ k) :
    (pyHexStr n).length ≤ k := by
  have := digitsBase_length 16 (by omega) n k hk hn
  unfold pyHexStr
  simpa [String.length] using this

/-- Claim C10 (confirmed).  When a tree entry's 20-byte binary hash
begins with a zero byte, the decoded entry's hash string is shorter
than 40 hexadecimal characters: `tree_parse_leaf` converts the hash
via `hex(int.from_bytes(..))`, whose minimal-length result drops the
leading zeros, rather than producing a fixed-width 40-character
string.  The record used is `b"100644 a\x00" ++ hashbytes`. -/
theorem tree_parse_leaf_short_hash (hb : List Nat) (hlen : hb.length = 20)
    (hhead : hb.head? = some 0) (hbytes : ∀ x ∈ hb, x < 256) :
    tree_parse_leaf ([49, 48, 48, 54, 52, 52, 32, 97, 0] ++ hb) 0 =
      .ok (29, { mode := [49, 48, 48, 54, 52, 52], path := [97],
                 sha := pyHexStr (fromBytesBE hb) }) ∧
    (pyHexStr (fromBytesBE hb)).length < 40 := by
  set raw := [49, 48, 48, 54, 52, 52, 32, 97, 0] ++ hb with hraw
  obtain ⟨t, ht⟩ : ∃ t, hb = 0 :: t := by
    cases hb with
    | nil => cases hhead
    | cons x xs =>
      simp only [List.head?_cons, Option.some.injEq] at hhead
      exact ⟨xs, by rw [hhead]⟩
  have hlt : fromBytesBE hb < 16 ^ 38 := by
    have htl : t.length = 19 := by
      rw [ht] at hlen
      simpa using hlen
    have hbt : ∀ x ∈ t, x < 256 := by
      intro x hx
      exact hbytes x (by rw [ht]; exact List.mem_cons_of_mem 0 hx)
    have h1 : fromBytesBE t < 256 ^ 19 := htl ▸ fromBytesBE_lt t hbt
    have h2 : (256 : Nat) ^ 19 = 16 ^ 38 := by norm_num
    rw [ht, fromBytesBE_cons_zero]
    omega
  have hlen40 : (pyHexStr (fromBytesBE hb)).length < 40 := by
    have := pyHexStr_length_le (fromBytesBE hb) 38 (by omega) hlt
    omega
  refine ⟨?_, hlen40⟩
  have hspc : pyFindN raw 32 0 = ((6 : Nat) : Int) := by
    have hd : raw.drop 0 = [49, 48, 48, 54, 52, 52] ++ 32 :: ([97, 0] ++ hb) := by
      simp [hraw]
    exact pyFindN_spec raw 0 [49, 48, 48, 54, 52, 52] ([97, 0] ++ hb) 32 hd (by decide)
  have hnt : pyFindN raw 0 6 = ((8 : Nat) : Int) := by
    have hd : raw.drop 6 = [32, 97] ++ 0 :: hb := by
      simp [hraw]
    have := pyFindN_spec raw 6 [32, 97] hb 0 hd (by decide)
    simpa using this
  have hmode : pySlice raw 0 6 = [49, 48, 48, 54, 52, 52] := by
    have hd : raw.drop 0 = [49, 48, 48, 54, 52, 52] ++ (32 :: 97 :: 0 :: hb) := by
      simp [hraw]
    have := pySlice_spec raw 0 [49, 48, 48, 54, 52, 52] (32 :: 97 :: 0 :: hb) hd
    simpa using this
  have hpath : pySlice raw 7 8 = [97] := by
    have hd : raw.drop 7 = [97] ++ (0 :: hb) := by
      simp [hraw]
    have := pySlice_spec raw 7 [97] (0 :: hb) hd
    simpa using this
  have hsha : pySlice raw 9 29 = hb := by
    have hd : raw.drop 9 = hb ++ [] := by
      simp [hraw]
    have := pySlice_spec raw 9 hb [] hd
    rw [hlen] at this
    simpa using this
  unfold tree_parse_leaf
  rw [hspc]
  have hcond : ((6 : Nat) : Int) - (0 : Nat) = 5 ∨ ((6 : Nat) : Int) - (0 : Nat) = 6 := by
    right
    simp
  rw [if_pos hcond]
  have e1 : ((6 : Nat) : Int) + 1 = ((7 : Nat) : Int) := by norm_num
  have e2 : pyFind raw 0 ((6 : Nat) : Int) = ((8 : Nat) : Int) := by
    unfold pyFind
    rw [if_neg (by omega)]
    simpa using hnt
  simp only [Nat.cast_zero, e2, e1]
  have e3 : pySlice raw ((0 : Nat) : Int) ((6 : Nat) : Int) = [49, 48, 48, 54, 52, 52] := by
    simpa using hmode
  have e4 : pySlice raw ((7 : Nat) : Int) (((8 : Nat) : Int)) = [97] := by
    simpa using hpath
  have e5 : pySlice raw (((8 : Nat) : Int) + 1) (((8 : Nat) : Int) + 21) = hb := by
    have h9 : ((8 : Nat) : Int) + 1 = ((9 : Nat) : Int) := by norm_num
    have h29 : ((8 : Nat) : Int) + 21 = ((29 : Nat) : Int) := by norm_num
    rw [h9, h29]
    simpa using hsha
  simp only [e4, e5, Nat.cast_ofNat, hmode]
  norm_num
  exact ⟨hpath, by rw [hsha]⟩

/-- Witness for the C10 theorem at the concrete hash
`0x00 followed by 19 bytes 0xab`. -/
theorem tree_parse_leaf_short_hash_witness :
    tree_parse_leaf ([49, 48, 48, 54, 52, 52, 32, 97, 0] ++ (0 :: List.replicate 19 171)) 0 =
      .ok (29, { mode := [49, 48, 48, 54, 52, 52], path := [97],
                 sha := pyHexStr (fromBytesBE (0 :: List.replicate 19 171)) }) ∧
    (pyHexStr (fromBytesBE (0 :: List.replicate 19 171))).length < 40 :=
  tree_parse_leaf_short_hash (0 :: List.replicate 19 171) (by decide) (by decide) (by decide)

/-- Claim C7, counterexample.  The claim states that a trailing
partial record — in particular an input truncated inside the 20 hash
bytes — fails with a `MalformedTree` error.  It does not: on
`b"100644 a\x00"` followed by only 10 hash bytes, `tree_parse`
returns a successful parse whose entry holds a 20-hex-character hash
built from the 10 available bytes, because the `raw[nt+1:nt+21]`
slice silently clamps at the end of the input and the loop exits
once `pos` (= `nt + 21` = 29) is at least `len(raw)` (= 19). -/
theorem tree_parse_accepts_truncated_record :
    tree_parse ([49, 48, 48, 54, 52, 52, 32, 97, 0] ++ List.replicate 10 171) =
      some (.ok [{ mode := [49, 48, 48, 54, 52, 52], path := [97],
                   sha := "abababababababababab" }]) := by decide

/-- Claim C7, amended.  Mode-length violations do fail: a record
whose mode (the bytes before the first space) is not 5 or 6 bytes
long makes `tree_parse_leaf` fail with the assertion error (the
source's `assert(spc - start in [5, 6])`, its `MalformedTree`
check).  But a trailing partial record truncated at or after the
path's NUL terminator is silently accepted rather than rejected:
the concrete truncated record of the counterexample parses
successfully, with a hash built from fewer than 20 bytes. -/
theorem tree_parse_mode_check :
    (∀ (mode rest : List Nat), 32 ∉ mode → mode.length ≠ 5 → mode.length ≠ 6 →
      tree_parse_leaf (mode ++ 32 :: rest) 0 = .error .assertionError) ∧
    tree_parse ([49, 48, 48, 54, 52, 52, 32, 97, 0] ++ List.replicate 10 171) =
      some (.ok [{ mode := [49, 48, 48, 54, 52, 52], path := [97],
                   sha := "abababababababababab" }]) := by
  constructor
  · intro mode rest h32 h5 h6
    have hspc : pyFindN (mode ++ 32 :: rest) 32 0 = ((mode.length : Nat) : Int) := by
      have hd : (mode ++ 32 :: rest).drop 0 = mode ++ 32 :: rest := by simp
      have := pyFindN_spec (mode ++ 32 :: rest) 0 mode rest 32 hd h32
      simpa using this
    unfold tree_parse_leaf
    rw [hspc]
    rw [if_neg ?_]
    intro hcase
    rcases hcase with h | h
    · have : mode.length = 5 := by
        simp only [Nat.cast_zero] at h
        omega
      exact h5 this
    · have : mode.length = 6 := by
        simp only [Nat.cast_zero] at h
        omega
      exact h6 this
  · decide

/-- Witness for the C7 theorem: a 4-byte mode `b"1006"` is rejected
with the assertion error. -/
theorem tree_parse_mode_check_witness :
    tree_parse_leaf ([49, 48, 48, 54] ++ 32 :: [97]) 0 = .error .assertionError ∧
    tree_parse ([49, 48, 48, 54, 52, 52, 32, 97, 0] ++ List.replicate 10 171) =
      some (.ok [{ mode := [49, 48, 48, 54, 52, 52], path := [97],
                   sha := "abababababababababab" }]) :=
  ⟨tree_parse_mode_check.1 [49, 48, 48, 54] [97] (by decide) (by decide) (by decide),
   tree_parse_mode_check.2⟩

/-- Claim C2 (code bug).  The claimed round trip `tree
encode(decode(bytes)) == bytes` cannot hold for any input:
`GitTree.deserialize` stores the parsed entries in the attribute
`entries`, but `tree_serialize` iterates `obj.items`, an attribute
no code in the source ever assigns, so serialization raises
`AttributeError` instead of reproducing the bytes.  Evaluated here
on the well-formed single-record tree `b"100644 a\x00" ++ 20 hash
bytes`: decoding succeeds, re-encoding fails. -/
theorem tree_roundtrip_attribute_bug :
    gitTreeFromData ([49, 48, 48, 54, 52, 52, 32, 97, 0] ++ List.replicate 20 171) =
      some (.ok (.tree (some [{ mode := [49, 48, 48, 54, 52, 52], path := [97],
                                sha := "abababababababababababababababababababab" }]) none)) ∧
    treeRoundTrip ([49, 48, 48, 54, 52, 52, 32, 97, 0] ++ List.replicate 20 171) =
      some (.error (.attributeError "items")) := by
  constructor
  · decide
  · decide

/-- Claim C1 (code bug).  The claim (and the spec) say a 40-character
hexadecimal name is returned unchanged (lower-cased) as the single
candidate by `object_resolve`, and `object_find` with no desired kind
then returns it.  The source's hash pattern is
`^[0-9A-Fa-f]{1,16}$` — an upper bound of 16, not 40 — so a
40-character hash never matches, the `len(name) == 40` branch is
unreachable dead code, `resolve` returns an empty candidate list, and
`find` raises its no-such-reference error instead of returning the
hash. -/
theorem object_resolve_forty_char_hash :
    object_resolve exStoreC9 "aaaaaaaaaaaaaaaaaaaaaaaaaaaaaaaaaaaaaaaa" = some [] ∧
    object_find exStoreC9 "aaaaaaaaaaaaaaaaaaaaaaaaaaaaaaaaaaaaaaaa" none true =
      some (.error (.noSuchReference "aaaaaaaaaaaaaaaaaaaaaaaaaaaaaaaaaaaaaaaa")) := by
  constructor
  · decide
  · decide

/-- Claim C9, counterexample.  With the two stored objects
`abc123…0` and `abc456…0`, the claim says resolving `"abc"` makes
`find` fail with `AmbiguousReference` carrying both candidates.  In
the source a 3-character token is below the 4-character short-hash
minimum, so it yields no candidates at all and `find` fails with
`NoSuchReference` instead. -/
theorem short_prefix_three_chars_not_ambiguous :
    object_find exStoreC9 "abc" none true =
      some (.error (.noSuchReference "abc")) ∧
    ¬ ∃ cs, object_find exStoreC9 "abc" none true =
      some (.error (.ambiguousReference "abc" cs)) := by
  have h : object_find exStoreC9 "abc" none true =
      some (.error (.noSuchReference "abc")) := by decide
  refine ⟨h, ?_⟩
  rintro ⟨cs, hcs⟩
  rw [h] at hcs
  simp at hcs

/-- Claim C9, amended.  On the store holding exactly `abc123…0` and
`abc456…0`: resolving `"abc1"` yields exactly the one matching
candidate and `find` returns its full hash; resolving `"abc"`
(3 characters, below the short-hash minimum of 4) yields no
candidates, so `find` fails with `NoSuchReference` — not
`AmbiguousReference`; a prefix matching no object (`"abcf"`) also
fails with `NoSuchReference`.  Ambiguity does arise for a
legal-length prefix: on a store holding `abcd11…0` and `abcd22…0`,
resolving `"abcd"` makes `find` fail with `AmbiguousReference`
carrying both candidate hashes. -/
theorem short_hash_resolution :
    object_resolve exStoreC9 "abc1" =
      some ["abc1230000000000000000000000000000000000"] ∧
    object_find exStoreC9 "abc1" none true =
      some (.ok (some "abc1230000000000000000000000000000000000")) ∧
    object_find exStoreC9 "abc" none true =
      some (.error (.noSuchReference "abc")) ∧
    object_find exStoreC9 "abcf" none true =
      some (.error (.noSuchReference "abcf")) ∧
    object_find exStoreC9b "abcd" none true =
      some (.error (.ambiguousReference "abcd"
        ["abcd110000000000000000000000000000000000",
         "abcd220000000000000000000000000000000000"])) := by
  refine ⟨by decide, by decide, by decide, by decide, by decide⟩

/-- Claim C6 (code bug).  The claim says `object_find` with a desired
kind follows tags (substituting the tag's `object` field) and
commit→tree indirection.  The source reads `obj.kvlm`, but the
parsed mapping is stored by `deserialize` under the attribute `msg`
and no code ever assigns `kvlm`, so the first follow step raises
`AttributeError` instead of substituting.  Evaluated on a store
whose short hash `abcd` resolves to a stored tag object whose
`object` field points at a commit: `find(.., fmt=commit,
follow=True)` raises `AttributeError("kvlm")`; with `follow=False`
the loop correctly returns "not found" after the first read, since
that path never touches `kvlm`. -/
theorem object_find_follow_attribute_bug :
    object_find exStoreC6 "abcd" (some "commit") true =
      some (.error (.attributeError "kvlm")) ∧
    object_find exStoreC6 "abcd" (some "commit") false =
      some (.ok none) := by
  constructor
  · decide
  · decide

/-- How `object_read` decomposes a stored byte sequence of the shape
`kind || 0x20 || decimal digits || 0x00 || payload` (with no space or
NUL inside `kind`): the declared length is compared against the
payload length before any dispatch on the kind. -/
lemma object_read_raw_header (kindB : List Nat) (d : Nat) (payload : List Nat)
    (h32 : 32 ∉ kindB) :
    object_read_raw (kindB ++ 32 :: asciiDec d ++ 0 :: payload) =
      if d = payload.length then decodePayload kindB payload
      else some (.error .malformedObject) := by
  set raw := kindB ++ 32 :: asciiDec d ++ 0 :: payload with hraw
  set k := kindB.length with hk
  set a := (asciiDec d).length with ha
  have hlenraw : raw.length = k + 1 + a + 1 + payload.length := by
    simp [hraw, hk, ha]
    omega
  have hx : pyFind raw 32 0 = ((k : Nat) : Int) := by
    unfold pyFind
    rw [if_neg (by omega)]
    have hd : raw.drop 0 = kindB ++ 32 :: (asciiDec d ++ 0 :: payload) := by
      simp [hraw]
    have := pyFindN_spec raw 0 kindB (asciiDec d ++ 0 :: payload) 32 hd h32
    simpa using this
  have hfmt : pySlice raw 0 ((k : Nat) : Int) = kindB := by
    have hd : raw.drop 0 = kindB ++ (32 :: asciiDec d ++ 0 :: payload) := by
      simp [hraw]
    have := pySlice_spec raw 0 kindB (32 :: asciiDec d ++ 0 :: payload) hd
    simpa using this
  have hdk : raw.drop k = (32 :: asciiDec d) ++ 0 :: payload := by
    have he : raw = kindB ++ ((32 :: asciiDec d) ++ 0 :: payload) := by
      simp [hraw]
    rw [he, hk]
    exact List.drop_left kindB ((32 :: asciiDec d) ++ 0 :: payload)
  have hg0 : (0 : Nat) ∉ 32 :: asciiDec d := by
    intro hmem
    rcases List.mem_cons.mp hmem with h | h
    · omega
    · have := asciiDec_range d 0 h
      omega
  have hy : pyFind raw 0 ((k : Nat) : Int) = ((k + (a + 1) : Nat) : Int) := by
    unfold pyFind
    rw [if_neg (by omega)]
    have htn : (((k : Nat) : Int)).toNat = k := by omega
    rw [htn]
    have := pyFindN_spec raw k (32 :: asciiDec d) payload 0 hdk hg0
    simpa [ha] using this
  have hsize : pySlice raw ((k : Nat) : Int) ((k + (a + 1) : Nat) : Int) = 32 :: asciiDec d := by
    have := pySlice_spec raw k (32 :: asciiDec d) (0 :: payload) hdk
    have hlen2 : k + (32 :: asciiDec d).length = k + (a + 1) := by
      simp [ha]
    rw [hlen2] at this
    exact this
  have hrest : pySliceFrom raw (((k + (a + 1) : Nat) : Int) + 1) = payload := by
    have he : raw = (kindB ++ 32 :: asciiDec d ++ [0]) ++ payload := by
      simp [hraw]
    have hplen : (kindB ++ 32 :: asciiDec d ++ [0]).length = k + (a + 1) + 1 := by
      simp [hk, ha]
      omega
    have hdrop : raw.drop (k + (a + 1) + 1) = payload := by
      rw [he, ← hplen]
      exact List.drop_left _ payload
    have := pySliceFrom_spec raw (k + (a + 1) + 1) payload hdrop
    have hcast : (((k + (a + 1) : Nat) : Int) + 1) = (((k + (a + 1) + 1 : Nat)) : Int) := by
      push_cast
      ring
    rw [hcast]
    exact this
  unfold object_read_raw
  rw [hx]
  simp only [hfmt, hy, hsize, pyIntAscii_header d, hrest]
  by_cases hd : d = payload.length
  · rw [if_pos hd, if_neg ?_]
    intro hcon
    apply hcon
    rw [hlenraw]
    push_cast
    omega
  · rw [if_neg hd, if_pos ?_]
    intro hcon
    apply hd
    rw [hlenraw] at hcon
    push_cast at hcon
    omega

/-- Claim C4 (confirmed).  For every stored object whose decompressed
header declares a length different from the actual payload length —
covering both a mutated declared length and a truncated payload —
`object_read` fails with its corrupt-object error (`Malformed
object: bad length`) before any decoding, and never returns an
object; for every well-formed stored object (`kind || 0x20 ||
str(len(payload)) || 0x00 || payload` with a payload its kind can
decode) the check passes and the read returns the decoded object.
The kind bytes are assumed space-free, as all stored kinds are. -/
theorem object_read_length_check :
    (∀ (kindB : List Nat) (declared : Nat) (payload : List Nat),
      32 ∉ kindB → declared ≠ payload.length →
      object_read_raw (kindB ++ 32 :: asciiDec declared ++ 0 :: payload) =
        some (.error .malformedObject)) ∧
    (∀ (kindB payload : List Nat) (obj : PyObj),
      32 ∉ kindB → decodePayload kindB payload = some (.ok obj) →
      object_read_raw (mkStoredBytes kindB payload) = some (.ok obj)) := by
  constructor
  · intro kindB declared payload h32 hne
    rw [object_read_raw_header kindB declared payload h32]
    rw [if_neg hne]
  · intro kindB payload obj h32 hdec
    unfold mkStoredBytes
    rw [object_read_raw_header kindB payload.length payload h32]
    rw [if_pos rfl]
    exact hdec

/-- Witness for the C4 theorem: a blob whose header declares length 5
over a 3-byte payload is rejected; the correctly stored 3-byte blob
is read back. -/
theorem object_read_length_check_witness :
    object_read_raw ([98, 108, 111, 98] ++ 32 :: asciiDec 5 ++ 0 :: [1, 2, 3]) =
      some (.error .malformedObject) ∧
    object_read_raw (mkStoredBytes [98, 108, 111, 98] [1, 2, 3]) =
      some (.ok (.blob [1, 2, 3])) :=
  ⟨object_read_length_check.1 [98, 108, 111, 98] 5 [1, 2, 3] (by decide) (by decide),
   object_read_length_check.2 [98, 108, 111, 98] [1, 2, 3] (.blob [1, 2, 3])
     (by decide) (by decide)⟩

/-- Claim C5, counterexample.  The claim quantifies over every
object, but for a tree object (as produced by `GitTree.deserialize`:
`entries` set, `items` never set) `object_write` does not return a
hash at all: `obj.serialize()` raises `AttributeError` because
`tree_serialize` reads the unset `items` attribute.  The hash
collaborator is irrelevant — the failure happens before hashing. -/
theorem object_write_tree_fails :
    object_write (fun _ => "")
      (.tree (some [GitTreeLeaf.mk [49, 48, 48, 54, 52, 52] [97] "ab"]) none) false =
      .error (.attributeError "items") := by decide

/-- Claim C5, amended.  For every object whose payload serialization
succeeds (every blob, commit and tag; tree objects fail as in the
counterexample), `object_write` with `actually_write=false` returns
`sha1(kind || 0x20 || str(len(payload)) || 0x00 || payload)` — the
external SHA-1 collaborator applied to exactly those bytes — while
performing no storage operation, and the hash equals the one
returned with `actually_write=true`, whose only storage operation
persists those same canonical bytes.  Since `object_write` is a
function of the object's kind and payload alone, writing the same
logical content twice yields the same hash. -/
theorem object_write_dry_run (sha1hex : List Nat → String) (obj : PyObj)
    (data : List Nat) (h : obj.serialize = .ok data) :
    object_write sha1hex obj false =
      .ok (sha1hex (mkStoredBytes obj.fmtBytes data), []) ∧
    object_write sha1hex obj true =
      .ok (sha1hex (mkStoredBytes obj.fmtBytes data), [mkStoredBytes obj.fmtBytes data]) := by
  unfold object_write
  rw [h]
  exact ⟨rfl, rfl⟩

/-- Witness for the C5 theorem: a 2-byte blob, with a concrete
stand-in for the hash collaborator. -/
theorem object_write_dry_run_witness :
    object_write (fun l => pyHexStr (fromBytesBE l)) (.blob [1, 2]) false =
      .ok (pyHexStr (fromBytesBE (mkStoredBytes [98, 108, 111, 98] [1, 2])), []) ∧
    object_write (fun l => pyHexStr (fromBytesBE l)) (.blob [1, 2]) true =
      .ok (pyHexStr (fromBytesBE (mkStoredBytes [98, 108, 111, 98] [1, 2])),
        [mkStoredBytes [98, 108, 111, 98] [1, 2]]) :=
  object_write_dry_run (fun l => pyHexStr (fromBytesBE l)) (.blob [1, 2]) [1, 2] rfl

/-!
Lemmas about `bytes.replace` at the two patterns the source uses:
unfolding (`replace(b"\n ", b"\n")`) and folding
(`replace(b"\n", b"\n ")`) of continuation lines, and the fact that
folding undoes unfolding on well-folded values.
-/

lemma pyReplaceGo_fuel (old new : List Nat) :
    ∀ n m s, s.length < n → s.length < m →
      pyReplaceGo old new n s = pyReplaceGo old new m s := by
  intro n
  induction n with
  | zero =>
    intro m s hn
    omega
  | succ n ih =>
    intro m s hn hm
    cases s with
    | nil =>
      cases m with
      | zero => omega
      | succ m => rfl
    | cons c rest =>
      cases m with
      | zero => omega
      | succ m =>
        simp only [pyReplaceGo]
        by_cases hp : old ≠ [] ∧ old.isPrefixOf (c :: rest)
        · rw [if_pos hp, if_pos hp]
          have holdlen : 1 ≤ old.length := by
        -- a non-empty pattern
            cases old with
            | nil => exact absurd rfl hp.1
            | cons a as => simp
          have hdl : ((c :: rest).drop old.length).length < n := by
            simp only [List.length_drop, List.length_cons] at *
            omega
          have hdm : ((c :: rest).drop old.length).length < m := by
            simp only [List.length_drop, List.length_cons] at *
            omega
          rw [ih m ((c :: rest).drop old.length) hdl hdm]
        · rw [if_neg hp, if_neg hp]
          have hdl : rest.length < n := by
            simp only [List.length_cons] at hn
            omega
          have hdm : rest.length < m := by
            simp only [List.length_cons] at hm
            omega
          rw [ih m rest hdl hdm]

lemma pyReplaceGo_eq (old new s : List Nat) (n : Nat) (h : s.length < n) :
    pyReplaceGo old new n s = pyReplace s old new :=
  pyReplaceGo_fuel old new n (s.length + 1) s h (by omega)

lemma pyReplace_unfold_nl (r : List Nat) :
    pyReplace (10 :: 32 :: r) [10, 32] [10] = 10 :: pyReplace r [10, 32] [10] := by
  unfold pyReplace
  simp only [pyReplaceGo]
  rw [if_pos ⟨by simp, by simp [List.isPrefixOf]⟩]
  have hd : (10 :: 32 :: r).drop ([10, 32] : List Nat).length = r := rfl
  rw [hd]
  rw [pyReplaceGo_fuel [10, 32] [10] ((10 :: 32 :: r).length) (r.length + 1) r
    (by simp only [List.length_cons]; omega) (by omega)]
  rfl

lemma pyReplace_unfold_other (c : Nat) (r : List Nat)
    (hc : ¬ (([10, 32] : List Nat).isPrefixOf (c :: r) = true)) :
    pyReplace (c :: r) [10, 32] [10] = c :: pyReplace r [10, 32] [10] := by
  unfold pyReplace
  simp only [pyReplaceGo]
  rw [if_neg (by intro hcon; exact hc hcon.2)]
  rw [pyReplaceGo_fuel [10, 32] [10] ((c :: r).length) (r.length + 1) r (by simp) (by omega)]

lemma pyReplace_fold_nl (r : List Nat) :
    pyReplace (10 :: r) [10] [10, 32] = 10 :: 32 :: pyReplace r [10] [10, 32] := by
  unfold pyReplace
  simp only [pyReplaceGo]
  rw [if_pos ⟨by simp, by simp [List.isPrefixOf]⟩]
  have hd : (10 :: r).drop ([10] : List Nat).length = r := rfl
  rw [hd]
  rw [pyReplaceGo_fuel [10] [10, 32] ((10 :: r).length) (r.length + 1) r (by simp) (by omega)]
  rfl

lemma pyReplace_fold_other (c : Nat) (r : List Nat) (hc : c ≠ 10) :
    pyReplace (c :: r) [10] [10, 32] = c :: pyReplace r [10] [10, 32] := by
  unfold pyReplace
  simp only [pyReplaceGo]
  rw [if_neg ?_]
  · rw [pyReplaceGo_fuel [10] [10, 32] ((c :: r).length) (r.length + 1) r (by simp) (by omega)]
  · intro hcon
    have h2 := hcon.2
    simp [List.isPrefixOf] at h2
    exact hc h2.symm

lemma wfFolded_nl (r : List Nat) : wfFolded (10 :: 32 :: r) = wfFolded r := by
  rw [wfFolded]
  simp

lemma wfFolded_other (c : Nat) (c2 : Nat) (r : List Nat) (hc : c ≠ 10) :
    wfFolded (c :: c2 :: r) = wfFolded (c2 :: r) := by
  rw [wfFolded]
  rw [if_neg hc]

lemma wfFolded_bad (c2 : Nat) (r2 : List Nat) (hc2 : c2 ≠ 32) :
    wfFolded (10 :: c2 :: r2) = false := by
  rw [wfFolded]
  rw [if_pos rfl]
  simp [hc2]

lemma wfFolded_single_nl : wfFolded [10] = false := rfl

/-- Re-folding undoes unfolding on a well-folded value: this is the
value-level core of the serialize-after-parse round trip. -/
lemma fold_unfold (N : Nat) :
    ∀ f : List Nat, f.length ≤ N → wfFolded f = true →
      pyReplace (pyReplace f [10, 32] [10]) [10] [10, 32] = f := by
  induction N with
  | zero =>
    intro f hlen _
    have hf : f = [] := by
      cases f with
      | nil => rfl
      | cons c r => simp at hlen
    subst hf
    rfl
  | succ N ih =>
    intro f hlen hwf
    cases f with
    | nil => rfl
    | cons c r =>
      by_cases hc : c = 10
      · subst hc
        cases r with
        | nil =>
          rw [wfFolded_single_nl] at hwf
          cases hwf
        | cons c2 r2 =>
          by_cases hc2 : c2 = 32
          · subst hc2
            rw [wfFolded_nl] at hwf
            rw [pyReplace_unfold_nl, pyReplace_fold_nl]
            have hr2 : r2.length ≤ N := by
              simp only [List.length_cons] at hlen
              omega
            rw [ih r2 hr2 hwf]
          · rw [wfFolded_bad c2 r2 hc2] at hwf
            cases hwf
      · have hwf2 : wfFolded r = true := by
          cases r with
          | nil => rfl
          | cons c2 r2 =>
            rw [wfFolded_other c c2 r2 hc] at hwf
            exact hwf
        have hpre : ¬ (([10, 32] : List Nat).isPrefixOf (c :: r) = true) := by
          intro hcon
          simp [List.isPrefixOf] at hcon
          exact hc hcon.1.symm
        rw [pyReplace_unfold_other c r hpre]
        rw [pyReplace_fold_other c (pyReplace r [10, 32] [10]) hc]
        have hr : r.length ≤ N := by
          simp only [List.length_cons] at hlen
          omega
        rw [ih r hr hwf2]

/-!
How `message_parse`'s dict accumulation behaves on a fresh key and
on consecutive repetitions of the same key.
-/

lemma dictKeys_append (d : Kvlm) (k : List Nat) (v : PyVal) :
    dictKeys (d ++ [(k, v)]) = dictKeys d ++ [k] := by
  simp [dictKeys]

lemma dictGet_not_mem (d : Kvlm) (k : List Nat) (h : k ∉ dictKeys d) :
    dictGet d k = none := by
  induction d with
  | nil => rfl
  | cons e rest ih =>
    have hne : ¬ (e.1 = k) := by
      intro hcon
      exact h (by simp [dictKeys, hcon])
    have hrest : k ∉ dictKeys rest := by
      intro hcon
      exact h (by simp [dictKeys] at hcon ⊢; right; exact hcon)
    unfold dictGet at ih ⊢
    rw [List.find?_cons_of_neg]
    · exact ih hrest
    · simpa using hne

lemma dictGet_append_last (d : Kvlm) (k : List Nat) (v : PyVal)
    (h : k ∉ dictKeys d) : dictGet (d ++ [(k, v)]) k = some v := by
  induction d with
  | nil => simp [dictGet, List.find?]
  | cons e rest ih =>
    have hne : ¬ (e.1 = k) := by
      intro hcon
      exact h (by simp [dictKeys, hcon])
    have hrest : k ∉ dictKeys rest := by
      intro hcon
      exact h (by simp [dictKeys] at hcon ⊢; right; exact hcon)
    unfold dictGet at ih ⊢
    rw [List.cons_append, List.find?_cons_of_neg]
    · exact ih hrest
    · simpa using hne

lemma dictSet_fresh (d : Kvlm) (k : List Nat) (v : PyVal)
    (h : k ∉ dictKeys d) : dictSet d k v = d ++ [(k, v)] := by
  induction d with
  | nil => rfl
  | cons e rest ih =>
    have hne : ¬ (e.1 = k) := by
      intro hcon
      exact h (by simp [dictKeys, hcon])
    have hrest : k ∉ dictKeys rest := by
      intro hcon
      exact h (by simp [dictKeys] at hcon ⊢; right; exact hcon)
    unfold dictSet
    rw [if_neg hne]
    rw [ih hrest]
    rfl

lemma dictSet_append_last (d : Kvlm) (k : List Nat) (v w : PyVal)
    (h : k ∉ dictKeys d) : dictSet (d ++ [(k, v)]) k w = d ++ [(k, w)] := by
  induction d with
  | nil => simp [dictSet]
  | cons e rest ih =>
    have hne : ¬ (e.1 = k) := by
      intro hcon
      exact h (by simp [dictKeys, hcon])
    have hrest : k ∉ dictKeys rest := by
      intro hcon
      exact h (by simp [dictKeys] at hcon ⊢; right; exact hcon)
    rw [List.cons_append]
    unfold dictSet
    rw [if_neg hne]
    rw [ih hrest]
    rfl

lemma dictAdd_fresh (d : Kvlm) (k : List Nat) (v : List Nat)
    (h : k ∉ dictKeys d) : dictAdd d k v = d ++ [(k, .scalar v)] := by
  unfold dictAdd
  rw [dictGet_not_mem d k h]
  exact dictSet_fresh d k (.scalar v) h

lemma dictAdd_last_scalar (d : Kvlm) (k : List Nat) (w v : List Nat)
    (h : k ∉ dictKeys d) :
    dictAdd (d ++ [(k, .scalar w)]) k v = d ++ [(k, .vlist [w, v])] := by
  unfold dictAdd
  rw [dictGet_append_last d k (.scalar w) h]
  exact dictSet_append_last d k (.scalar w) (.vlist [w, v]) h

lemma dictAdd_last_vlist (d : Kvlm) (k : List Nat) (vs : List (List Nat)) (v : List Nat)
    (h : k ∉ dictKeys d) :
    dictAdd (d ++ [(k, .vlist vs)]) k v = d ++ [(k, .vlist (vs ++ [v]))] := by
  unfold dictAdd
  rw [dictGet_append_last d k (.vlist vs) h]
  exact dictSet_append_last d k (.vlist vs) (.vlist (vs ++ [v])) h

lemma foldl_dictAdd_tail (k : List Nat) (dct : Kvlm) (h : k ∉ dictKeys dct) :
    ∀ (ws vs : List (List Nat)),
      ws.foldl (fun d v => dictAdd d k v) (dct ++ [(k, .vlist vs)]) =
        dct ++ [(k, .vlist (vs ++ ws))] := by
  intro ws
  induction ws with
  | nil =>
    intro vs
    simp
  | cons w ws ih =>
    intro vs
    rw [List.foldl_cons, dictAdd_last_vlist dct k vs w h, ih (vs ++ [w])]
    simp

/-- Folding the dict-add step over the consecutive occurrences of one
fresh key appends exactly one entry: a scalar for a single
occurrence, the ordered value list otherwise. -/
lemma foldl_dictAdd_group (k : List Nat) (dct : Kvlm) (h : k ∉ dictKeys dct)
    (ws : List (List Nat)) (hne : ws ≠ []) :
    ws.foldl (fun d v => dictAdd d k v) dct = dct ++ [(k, mkVal ws)] := by
  cases ws with
  | nil => exact absurd rfl hne
  | cons w ws2 =>
    rw [List.foldl_cons, dictAdd_fresh dct k w h]
    cases ws2 with
    | nil => rfl
    | cons w2 ws3 =>
      rw [List.foldl_cons, dictAdd_last_scalar dct k w w2 h]
      rw [foldl_dictAdd_tail k dct h ws3 [w, w2]]
      rfl

/-!
The value-end scan on a canonical line: it stops exactly at the
line's terminating newline, because every newline inside the folded
value is followed by a space and the byte after the terminator (the
next line's first key byte, or the blank line) is not a space.
-/

lemma drop_of_drop_append (raw : List Nat) (q : Nat) (g t : List Nat)
    (hdrop : raw.drop q = g ++ t) : raw.drop (q + g.length) = t := by
  have h1 : raw.drop (q + g.length) = (raw.drop q).drop g.length := by
    rw [List.drop_drop]
  rw [h1, hdrop]
  exact List.drop_left g t

lemma scanEnd_render_base (raw : List Nat) (n : Nat) (g : List Nat) (q : Nat)
    (S : List Nat) (hn : 1 ≤ n) (hg : (10 : Nat) ∉ g)
    (hdrop : raw.drop q = g ++ 10 :: S) (hS : ∃ s t, S = s :: t ∧ s ≠ 32) :
    scanEndFrom raw n q = some (.ok ((q + g.length : Nat) : Int)) := by
  obtain ⟨s, t, hSe, hs32⟩ := hS
  cases n with
  | zero => omega
  | succ m =>
    have he : pyFindN raw 10 q = ((q + g.length : Nat) : Int) :=
      pyFindN_spec raw q g S 10 hdrop hg
    have hd2 : raw.drop (q + g.length + 1) = S := by
      have : raw.drop q = (g ++ [10]) ++ S := by
        rw [hdrop]
        simp
      have h2 := drop_of_drop_append raw q (g ++ [10]) S this
      simpa using h2
    have hget : pyGet raw (((q + g.length : Nat) : Int) + 1) = .ok s := by
      have hcast : (((q + g.length : Nat) : Int) + 1) = ((q + g.length + 1 : Nat) : Int) := by
        push_cast
        ring
      rw [hcast]
      exact pyGet_spec raw (q + g.length + 1) s t (by rw [hd2, hSe])
    rw [scanEndFrom, he, hget]
    simp only [hs32, if_false]

lemma scanEnd_render (raw : List Nat) (N : Nat) :
    ∀ f : List Nat, f.length ≤ N → wfFolded f = true →
    ∀ (n : Nat) (g : List Nat) (q : Nat) (S : List Nat),
      f.length + 1 ≤ n → (10 : Nat) ∉ g →
      raw.drop q = g ++ f ++ 10 :: S →
      (∃ s t, S = s :: t ∧ s ≠ 32) →
      scanEndFrom raw n q = some (.ok ((q + g.length + f.length : Nat) : Int)) := by
  induction N with
  | zero =>
    intro f hlen hwf n g q S hn hg hdrop hS
    have hf : f = [] := by
      cases f with
      | nil => rfl
      | cons c r => simp at hlen
    subst hf
    have := scanEnd_render_base raw n g q S (by omega) hg (by simpa using hdrop) hS
    simpa using this
  | succ N ih =>
    intro f hlen hwf n g q S hn hg hdrop hS
    cases f with
    | nil =>
      have := scanEnd_render_base raw n g q S (by omega) hg (by simpa using hdrop) hS
      simpa using this
    | cons c r =>
      by_cases hc : c = 10
      · subst hc
        obtain ⟨r2, hr2⟩ : ∃ r2, r = 32 :: r2 := by
          cases r with
          | nil =>
            rw [wfFolded_single_nl] at hwf
            cases hwf
          | cons c2 r3 =>
            by_cases hc2 : c2 = 32
            · exact ⟨r3, by rw [hc2]⟩
            · rw [wfFolded_bad c2 r3 hc2] at hwf
              cases hwf
        subst hr2
        have hwf2 : wfFolded r2 = true := by
          rw [wfFolded_nl] at hwf
          exact hwf
        cases n with
        | zero => simp at hn
        | succ m =>
          have he : pyFindN raw 10 q = ((q + g.length : Nat) : Int) := by
            have hd : raw.drop q = g ++ 10 :: (32 :: r2 ++ 10 :: S) := by
              rw [hdrop]
              simp
            exact pyFindN_spec raw q g (32 :: r2 ++ 10 :: S) 10 hd hg
          have hget : pyGet raw (((q + g.length : Nat) : Int) + 1) = .ok 32 := by
            have hcast : (((q + g.length : Nat) : Int) + 1) = ((q + g.length + 1 : Nat) : Int) := by
              push_cast
              ring
            rw [hcast]
            have hd2 : raw.drop (q + g.length + 1) = 32 :: (r2 ++ 10 :: S) := by
              have hsp : raw.drop q = (g ++ [10]) ++ (32 :: r2 ++ 10 :: S) := by
                rw [hdrop]
                simp
              have h2 := drop_of_drop_append raw q (g ++ [10]) (32 :: r2 ++ 10 :: S) hsp
              simpa using h2
            exact pyGet_spec raw (q + g.length + 1) 32 (r2 ++ 10 :: S) hd2
          have htoNat : ((((q + g.length : Nat) : Int) + 1)).toNat = q + g.length + 1 := by
            omega
          have hd3 : raw.drop (q + g.length + 1) = [32] ++ r2 ++ 10 :: S := by
            have hsp : raw.drop q = (g ++ [10]) ++ ([32] ++ r2 ++ 10 :: S) := by
              rw [hdrop]
              simp
            have h2 := drop_of_drop_append raw q (g ++ [10]) ([32] ++ r2 ++ 10 :: S) hsp
            simpa using h2
          have hlen2 : r2.length ≤ N := by
            simp only [List.length_cons] at hlen
            omega
          have hn2 : r2.length + 1 ≤ m := by
            simp only [List.length_cons] at hn
            omega
          have happ := ih r2 hlen2 hwf2 m [32] (q + g.length + 1) S hn2 (by simp) hd3 hS
          rw [scanEndFrom, he, hget]
          simp only [htoNat, happ]
          rw [if_pos trivial]
          have harith : q + g.length + 1 + [32].length + r2.length =
              q + g.length + (10 :: 32 :: r2).length := by
            show q + g.length + 1 + 1 + r2.length = q + g.length + (r2.length + 1 + 1)
            omega
          rw [harith]
      · have hwf2 : wfFolded r = true := by
          cases r with
          | nil => rfl
          | cons c2 r2 =>
            rw [wfFolded_other c c2 r2 hc] at hwf
            exact hwf
        have hd2 : raw.drop q = (g ++ [c]) ++ r ++ 10 :: S := by
          rw [hdrop]
          simp
        have hg2 : (10 : Nat) ∉ g ++ [c] := by
          intro hmem
          rcases List.mem_append.mp hmem with h | h
          · exact hg h
          · simp at h
            exact hc h.symm
        have hlen2 : r.length ≤ N := by
          simp only [List.length_cons] at hlen
          omega
        have hn2 : r.length + 1 ≤ n := by
          simp only [List.length_cons] at hn
          omega
        have := ih r hlen2 hwf2 n (g ++ [c]) q S hn2 hg2 hd2 hS
        rw [this]
        congr 2
        simp
        omega

/-!
The main parsing lemma: on a canonical field block, `message_parse`
consumes one line per recursion step and accumulates exactly the
dict-add steps, finishing with the message under the empty key.
-/

lemma pyFind_natCast (raw : List Nat) (c p : Nat) :
    pyFind raw c ((p : Nat) : Int) = pyFindN raw c p := by
  unfold pyFind
  rw [if_neg (by omega)]
  norm_num

lemma pyFindN_head_ne (raw : List Nat) (q : Nat) (a c : Nat) (t : List Nat)
    (hdrop : raw.drop q = a :: t) (hne : a ≠ c) :
    pyFindN raw c q = -1 ∨ ((q : Int) + 1) ≤ pyFindN raw c q := by
  unfold pyFindN
  rw [hdrop, List.findIdx?_cons]
  rw [if_neg (by simpa using hne)]
  simp only [List.findIdx?_start_succ]
  cases h : List.findIdx? (fun x => x = c) t with
  | none => simp
  | some j =>
    right
    simp

lemma renderKvlm_cons (k f : List Nat) (rest : List (List Nat × List Nat))
    (msg : List Nat) :
    renderKvlm ((k, f) :: rest) msg = renderLine k f ++ renderKvlm rest msg := by
  simp [renderKvlm]

lemma renderKvlm_head (lines : List (List Nat × List Nat)) (msg : List Nat)
    (hk : ∀ kf ∈ lines, wfKey kf.1) :
    ∃ s t, renderKvlm lines msg = s :: t ∧ s ≠ 32 := by
  cases lines with
  | nil => exact ⟨10, msg, by simp [renderKvlm], by omega⟩
  | cons kf rest =>
    obtain ⟨hne, h32, _⟩ := hk kf (List.mem_cons_self kf rest)
    cases hkf : kf.1 with
    | nil => exact absurd hkf hne
    | cons k0 k1 =>
      refine ⟨k0, k1 ++ 32 :: kf.2 ++ [10] ++ renderKvlm rest msg, ?_, ?_⟩
      · have : renderKvlm (kf :: rest) msg = renderLine kf.1 kf.2 ++ renderKvlm rest msg := by
          cases kf
          simp [renderKvlm]
        rw [this, renderLine, hkf]
        simp
      · intro hcon
        exact h32 (by rw [hkf, hcon]; exact List.mem_cons_self 32 k1)

lemma split_first_nl (S : List Nat) : ∀ f : List Nat,
    ∃ f1 f2, f ++ 10 :: S = f1 ++ 10 :: f2 ∧ (10 : Nat) ∉ f1 := by
  intro f
  induction f with
  | nil => exact ⟨[], S, rfl, by simp⟩
  | cons c r ih =>
    by_cases hc : c = 10
    · subst hc
      exact ⟨[], r ++ 10 :: S, by simp, by simp⟩
    · obtain ⟨f1, f2, he, h10⟩ := ih
      refine ⟨c :: f1, f2, ?_, ?_⟩
      · simp [he]
      · intro hmem
        rcases List.mem_cons.mp hmem with h | h
        · exact hc h.symm
        · exact h10 h

lemma parse_render_nil (raw msg : List Nat) (n p : Nat) (dct : Kvlm)
    (hdrop : raw.drop p = renderKvlm [] msg) (hn : 2 ≤ n) :
    message_parse raw n p dct = some (.ok (dictSet dct [] (.scalar msg))) := by
  cases n with
  | zero => omega
  | succ m =>
    have hdrop2 : raw.drop p = [] ++ 10 :: msg := by simpa [renderKvlm] using hdrop
    have hnl : pyFindN raw 10 p = ((p : Nat) : Int) := by
      have := pyFindN_spec raw p [] msg 10 hdrop2 (by simp)
      simpa using this
    have hspc := pyFindN_head_ne raw p 10 32 msg (by simpa using hdrop2) (by omega)
    rw [message_parse]
    rw [pyFind_natCast raw 32 p, pyFind_natCast raw 10 p, hnl]
    have hcond : pyFindN raw 32 p < 0 ∨ ((p : Nat) : Int) < pyFindN raw 32 p := by
      rcases hspc with h | h
      · left
        omega
      · right
        omega
    rw [if_pos hcond, if_pos rfl]
    have hmsg : pySliceFrom raw (((p : Nat) : Int) + 1) = msg := by
      have hd2 : raw.drop (p + 1) = msg := by
        have := drop_of_drop_append raw p [10] msg (by simpa using hdrop2)
        simpa using this
      have hcast : (((p : Nat) : Int) + 1) = ((p + 1 : Nat) : Int) := by push_cast; ring
      rw [hcast]
      exact pySliceFrom_spec raw (p + 1) msg hd2
    rw [hmsg]

lemma parse_render (raw : List Nat) (msg : List Nat) (N : Nat) :
    ∀ lines : List (List Nat × List Nat), lines.length ≤ N →
      (∀ kf ∈ lines, wfKey kf.1 ∧ wfFolded kf.2 = true) →
      ∀ (n p : Nat) (dct : Kvlm),
        raw.drop p = renderKvlm lines msg →
        raw.length - p + 2 ≤ n →
        message_parse raw n p dct =
          some (.ok (dictSet
            (lines.foldl (fun d kf => dictAdd d kf.1 (pyReplace kf.2 [10, 32] [10])) dct)
            [] (.scalar msg))) := by
  induction N with
  | zero =>
    intro lines hlen hwf n p dct hdrop hn
    have hnil : lines = [] := List.eq_nil_of_length_eq_zero (by omega)
    subst hnil
    rw [List.foldl_nil]
    exact parse_render_nil raw msg n p dct hdrop (by omega)
  | succ N ih =>
    intro lines hlen hwf n p dct hdrop hn
    cases lines with
    | nil =>
      rw [List.foldl_nil]
      exact parse_render_nil raw msg n p dct hdrop (by omega)
    | cons kf rest =>
      obtain ⟨k, f⟩ := kf
      obtain ⟨⟨hkne, hk32, hk10⟩, hfwf⟩ := hwf (k, f) (List.mem_cons_self (k, f) rest)
      have hwfrest : ∀ kf ∈ rest, wfKey kf.1 ∧ wfFolded kf.2 = true :=
        fun kf hmem => hwf kf (List.mem_cons_of_mem (k, f) hmem)
      set S := renderKvlm rest msg with hS
      have hdropc : raw.drop p = k ++ 32 :: (f ++ 10 :: S) := by
        rw [hdrop, renderKvlm_cons, renderLine]
        simp
      have hdlen : raw.length - p = k.length + 1 + f.length + 1 + S.length := by
        have h1 : (raw.drop p).length = raw.length - p := by simp
        rw [hdropc] at h1
        simp at h1
        omega
      cases n with
      | zero => omega
      | succ m =>
        have hspc : pyFindN raw 32 p = ((p + k.length : Nat) : Int) :=
          pyFindN_spec raw p k (f ++ 10 :: S) 32 hdropc hk32
        obtain ⟨f1, f2, hsplit, hf1⟩ := split_first_nl S f
        have hnlge : ((p + k.length : Nat) : Int) < pyFindN raw 10 p := by
          have hd2 : raw.drop p = (k ++ 32 :: f1) ++ 10 :: f2 := by
            rw [hdropc, hsplit]
            simp
          have hg : (10 : Nat) ∉ k ++ 32 :: f1 := by
            intro hmem
            rcases List.mem_append.mp hmem with h | h
            · exact hk10 h
            · rcases List.mem_cons.mp h with h2 | h2
              · omega
              · exact hf1 h2
          have hv := pyFindN_spec raw p (k ++ 32 :: f1) f2 10 hd2 hg
          rw [hv]
          push_cast
          simp
        have hcond : ¬ (((p + k.length : Nat) : Int) < 0 ∨
            pyFindN raw 10 p < ((p + k.length : Nat) : Int)) := by
          intro hcon
          rcases hcon with h | h
          · push_cast at h
            omega
          · omega
        rw [message_parse]
        rw [pyFind_natCast raw 32 p, pyFind_natCast raw 10 p, hspc]
        rw [if_neg hcond]
        have hkey : pySlice raw ((p : Nat) : Int) ((p + k.length : Nat) : Int) = k := by
          have := pySlice_spec raw p k (32 :: (f ++ 10 :: S)) hdropc
          simpa using this
        obtain ⟨k0, k1, hk01⟩ : ∃ k0 k1, k = k0 :: k1 := by
          cases k with
          | nil => exact absurd rfl hkne
          | cons a b => exact ⟨a, b, rfl⟩
        have hdropp1 : raw.drop (p + 1) = (k1 ++ [32]) ++ f ++ 10 :: S := by
          have := drop_of_drop_append raw p [k0] (k1 ++ 32 :: (f ++ 10 :: S))
            (by rw [hdropc, hk01]; simp)
          simpa using this
        have hShead : ∃ s t, S = s :: t ∧ s ≠ 32 := renderKvlm_head rest msg
          (fun kf hmem => (hwfrest kf hmem).1)
        have hg10 : (10 : Nat) ∉ k1 ++ [32] := by
          intro hmem
          rcases List.mem_append.mp hmem with h | h
          · exact hk10 (by rw [hk01]; exact List.mem_cons_of_mem k0 h)
          · simp at h
        have hscanfuel : f.length + 1 ≤ m := by omega
        have hscan := scanEnd_render raw f.length f (by omega) hfwf m (k1 ++ [32]) (p + 1) S
          hscanfuel hg10 hdropp1 hShead
        have hglen : (p + 1) + (k1 ++ [32]).length + f.length = p + k.length + 1 + f.length := by
          rw [hk01]
          simp
          omega
        rw [hglen] at hscan
        rw [hscan]
        have hvalue : pySlice raw (((p + k.length : Nat) : Int) + 1)
            ((p + k.length + 1 + f.length : Nat) : Int) = f := by
          have hd3 : raw.drop (p + k.length + 1) = f ++ (10 :: S) := by
            have := drop_of_drop_append raw p (k ++ [32]) (f ++ 10 :: S)
              (by rw [hdropc]; simp)
            simpa [Nat.add_assoc] using this
          have hcast : (((p + k.length : Nat) : Int) + 1) = ((p + k.length + 1 : Nat) : Int) := by
            push_cast
            ring
          rw [hcast]
          have hc2 : p + k.length + 1 + f.length = (p + k.length + 1) + f.length := by omega
          rw [hc2]
          exact pySlice_spec raw (p + k.length + 1) f (10 :: S) hd3
        have htoNat : ((((p + k.length + 1 + f.length : Nat) : Int)) + 1).toNat =
            p + k.length + 1 + f.length + 1 := by omega
        have hdroprest : raw.drop (p + k.length + 1 + f.length + 1) = S := by
          have h0 := drop_of_drop_append raw p (k ++ 32 :: f ++ [10]) S
            (by rw [hdropc]; simp)
          have hplen : (k ++ 32 :: f ++ [10]).length = k.length + 1 + f.length + 1 := by
            simp
            omega
          rw [hplen] at h0
          have hc3 : p + (k.length + 1 + f.length + 1) = p + k.length + 1 + f.length + 1 := by
            omega
          rw [hc3] at h0
          exact h0
        have hrest := ih rest (by simp at hlen; omega) hwfrest m
          (p + k.length + 1 + f.length + 1)
          (dictAdd dct k (pyReplace f [10, 32] [10])) hdroprest (by omega)
        simp only [hkey, hvalue, htoNat]
        rw [hrest]
        rw [List.foldl_cons]

/-!
The dict produced on grouped lines, and its serialization.
-/

lemma groupedLines_nil : groupedLines [] = [] := rfl

lemma groupedLines_cons (g : List Nat × List (List Nat))
    (gs : List (List Nat × List (List Nat))) :
    groupedLines (g :: gs) = (g.2.map (fun f => (g.1, f))) ++ groupedLines gs := by
  simp [groupedLines]

lemma foldl_groups :
    ∀ (gs : List (List Nat × List (List Nat))) (dct : Kvlm),
      (∀ g ∈ gs, g.1 ∉ dictKeys dct) →
      gs.Pairwise (fun a b => a.1 ≠ b.1) →
      (∀ g ∈ gs, g.2 ≠ []) →
      (groupedLines gs).foldl
          (fun d kf => dictAdd d kf.1 (pyReplace kf.2 [10, 32] [10])) dct =
        dct ++ gs.map (fun g => (g.1, mkVal (g.2.map (fun f => pyReplace f [10, 32] [10])))) := by
  intro gs
  induction gs with
  | nil =>
    intro dct _ _ _
    simp [groupedLines]
  | cons g gs ih =>
    intro dct hfresh hpw hne
    rw [groupedLines_cons, List.foldl_append]
    have hinner : (g.2.map (fun f => (g.1, f))).foldl
        (fun d kf => dictAdd d kf.1 (pyReplace kf.2 [10, 32] [10])) dct =
        dct ++ [(g.1, mkVal (g.2.map (fun f => pyReplace f [10, 32] [10])))] := by
      rw [List.foldl_map]
      have hmap : g.2.foldl
          (fun d f => dictAdd d g.1 (pyReplace f [10, 32] [10])) dct =
          (g.2.map (fun f => pyReplace f [10, 32] [10])).foldl
            (fun d v => dictAdd d g.1 v) dct := by
        rw [List.foldl_map]
      rw [hmap]
      exact foldl_dictAdd_group g.1 dct (hfresh g (List.mem_cons_self g gs))
        (g.2.map (fun f => pyReplace f [10, 32] [10]))
        (by
          intro hcon
          exact (hne g (List.mem_cons_self g gs)) (List.map_eq_nil_iff.mp hcon))
    rw [hinner]
    have hpw2 := List.pairwise_cons.mp hpw
    have hfresh2 : ∀ g2 ∈ gs, g2.1 ∉
        dictKeys (dct ++ [(g.1, mkVal (g.2.map (fun f => pyReplace f [10, 32] [10])))]) := by
      intro g2 hmem
      rw [dictKeys_append]
      intro hcon
      rcases List.mem_append.mp hcon with h | h
      · exact hfresh g2 (List.mem_cons_of_mem g hmem) h
      · simp at h
        exact hpw2.1 g2 hmem h.symm
    have := ih (dct ++ [(g.1, mkVal (g.2.map (fun f => pyReplace f [10, 32] [10])))])
      hfresh2 hpw2.2 (fun g2 hmem => hne g2 (List.mem_cons_of_mem g hmem))
    rw [this]
    simp

lemma valAsList_mkVal (vs : List (List Nat)) : valAsList (mkVal vs) = vs := by
  match vs with
  | [] => rfl
  | [v] => rfl
  | v1 :: v2 :: r => rfl

lemma emit_foldl (k : List Nat) :
    ∀ (ws : List (List Nat)) (a : List Nat),
      ws.foldl (fun a v => a ++ k ++ 32 :: pyReplace v [10] [10, 32] ++ [10]) a =
        a ++ (ws.map (fun v => k ++ 32 :: pyReplace v [10] [10, 32] ++ [10])).flatten := by
  intro ws
  induction ws with
  | nil =>
    intro a
    simp
  | cons w ws ih =>
    intro a
    rw [List.foldl_cons, ih]
    simp

lemma serialize_fields :
    ∀ (gs : List (List Nat × List (List Nat))) (acc : List Nat),
      (∀ g ∈ gs, wfKey g.1) →
      (∀ g ∈ gs, ∀ f ∈ g.2, wfFolded f = true) →
      (gs.map (fun g => (g.1, mkVal (g.2.map (fun f => pyReplace f [10, 32] [10]))))).foldl
          (fun acc e =>
            if e.1 = [] then acc
            else
              acc ++
                (valAsList e.2).foldl
                  (fun a v => a ++ e.1 ++ 32 :: pyReplace v [10] [10, 32] ++ [10]) [])
          acc =
        acc ++ ((groupedLines gs).map (fun kf => renderLine kf.1 kf.2)).flatten := by
  intro gs
  induction gs with
  | nil =>
    intro acc _ _
    simp [groupedLines]
  | cons g gs ih =>
    intro acc hk hv
    rw [List.map_cons, List.foldl_cons]
    have hkne : ¬ (g.1 = []) := (hk g (List.mem_cons_self g gs)).1
    rw [if_neg hkne]
    rw [valAsList_mkVal, emit_foldl]
    have hlines : (g.2.map (fun f => pyReplace f [10, 32] [10])).map
        (fun v => g.1 ++ 32 :: pyReplace v [10] [10, 32] ++ [10]) =
        g.2.map (fun f => renderLine g.1 f) := by
      rw [List.map_map]
      apply List.map_congr_left
      intro f hf
      simp only [Function.comp]
      rw [fold_unfold f.length f (by omega) (hv g (List.mem_cons_self g gs) f hf)]
      rfl
    rw [hlines]
    rw [ih (acc ++ ([] ++ (g.2.map (fun f => renderLine g.1 f)).flatten))
      (fun g2 hmem => hk g2 (List.mem_cons_of_mem g hmem))
      (fun g2 hmem => hv g2 (List.mem_cons_of_mem g hmem))]
    rw [groupedLines_cons]
    simp [List.map_map, Function.comp]
    congr 1

lemma serialize_groupedDict (gs : List (List Nat × List (List Nat))) (msg : List Nat)
    (hk : ∀ g ∈ gs, wfKey g.1)
    (hv : ∀ g ∈ gs, ∀ f ∈ g.2, wfFolded f = true) :
    message_serialize (groupedDict gs msg) = .ok (renderKvlm (groupedLines gs) msg) := by
  have hkeys0 : ([] : List Nat) ∉ dictKeys
      (gs.map (fun g => (g.1, mkVal (g.2.map (fun f => pyReplace f [10, 32] [10]))))) := by
    intro hmem
    unfold dictKeys at hmem
    rw [List.map_map] at hmem
    obtain ⟨g, hg, he⟩ := List.mem_map.mp hmem
    exact (hk g hg).1 (by simpa using he.symm)
  unfold message_serialize groupedDict
  rw [dictGet_append_last _ [] (.scalar msg) hkeys0]
  rw [List.foldl_append]
  have hlast : (([([], PyVal.scalar msg)] : Kvlm)).foldl
      (fun acc e =>
        if e.1 = [] then acc
        else
          acc ++
            (valAsList e.2).foldl
              (fun a v => a ++ e.1 ++ 32 :: pyReplace v [10] [10, 32] ++ [10]) [])
      ((gs.map (fun g => (g.1, mkVal (g.2.map (fun f => pyReplace f [10, 32] [10]))))).foldl
        (fun acc e =>
          if e.1 = [] then acc
          else
            acc ++
              (valAsList e.2).foldl
                (fun a v => a ++ e.1 ++ 32 :: pyReplace v [10] [10, 32] ++ [10]) [])
        []) = _ := rfl
  rw [List.foldl_cons, List.foldl_nil]
  rw [if_pos rfl]
  rw [serialize_fields gs [] hk hv]
  rw [renderKvlm]
  simp

/-- Claim C3, counterexample.  The claim asserts
`message_serialize(message_parse(bytes)) == bytes` for every
well-formed field block including repeated field names.  It fails
when equal field names are not adjacent: on
`b"a 1\nb 2\na 3\n\nm"` the parse merges the two `a` fields into one
list-valued entry at the first occurrence's position, and
serialization emits both `a` lines together, producing
`b"a 1\na 3\nb 2\n\nm"` — the `b` line has moved. -/
theorem message_roundtrip_nonadjacent_repeat :
    parseMsg [97, 32, 49, 10, 98, 32, 50, 10, 97, 32, 51, 10, 10, 109] =
      some (.ok [([97], .vlist [[49], [51]]), ([98], .scalar [50]), ([], .scalar [109])]) ∧
    message_serialize
        [([97], .vlist [[49], [51]]), ([98], .scalar [50]), ([], .scalar [109])] =
      .ok [97, 32, 49, 10, 97, 32, 51, 10, 98, 32, 50, 10, 10, 109] ∧
    ([97, 32, 49, 10, 97, 32, 51, 10, 98, 32, 50, 10, 10, 109] : List Nat) ≠
      [97, 32, 49, 10, 98, 32, 50, 10, 97, 32, 51, 10, 10, 109] := by
  refine ⟨by decide, by decide, by decide⟩

/-- Claim C3, amended.  For every well-formed canonical field block
whose repeated field names occur consecutively — described as groups
`gs`, each a field name with its non-empty block of folded values,
group names pairwise distinct, names non-empty and free of space and
newline, every newline in a folded value followed by a space —
followed by a blank line and arbitrary message bytes:
`message_parse` returns exactly the expected mapping (folding
markers removed, groups in order, message under the empty key), and
`message_serialize` maps it back to exactly the original bytes.
This covers folded multi-line values (gpgsig), consecutively
repeated field names, empty values, and the message-only block
(`gs = []`). -/
theorem message_roundtrip_grouped (gs : List (List Nat × List (List Nat)))
    (msg : List Nat)
    (hkeys : ∀ g ∈ gs, wfKey g.1)
    (hvals : ∀ g ∈ gs, g.2 ≠ [] ∧ ∀ f ∈ g.2, wfFolded f = true)
    (hdist : gs.Pairwise (fun a b => a.1 ≠ b.1)) :
    parseMsg (renderKvlm (groupedLines gs) msg) = some (.ok (groupedDict gs msg)) ∧
    message_serialize (groupedDict gs msg) = .ok (renderKvlm (groupedLines gs) msg) := by
  have hlineswf : ∀ kf ∈ groupedLines gs, wfKey kf.1 ∧ wfFolded kf.2 = true := by
    intro kf hmem
    unfold groupedLines at hmem
    obtain ⟨g, hg, hin⟩ := List.mem_flatMap.mp hmem
    obtain ⟨f, hf, he⟩ := List.mem_map.mp hin
    subst he
    exact ⟨hkeys g hg, (hvals g hg).2 f hf⟩
  constructor
  · set raw := renderKvlm (groupedLines gs) msg with hraw
    have hparse := parse_render raw msg (groupedLines gs).length (groupedLines gs)
      (le_refl _) hlineswf (raw.length + 2) 0 [] (by simp [hraw]) (by omega)
    rw [parseMsg, hparse]
    have hfold := foldl_groups gs [] (by simp [dictKeys]) hdist
      (fun g hg => (hvals g hg).1)
    rw [hfold]
    have hset : dictSet
        ((([] : Kvlm)) ++ gs.map (fun g => (g.1, mkVal (g.2.map (fun f => pyReplace f [10, 32] [10])))))
        [] (.scalar msg) = groupedDict gs msg := by
      rw [List.nil_append]
      have hk0 : ([] : List Nat) ∉ dictKeys
          (gs.map (fun g => (g.1, mkVal (g.2.map (fun f => pyReplace f [10, 32] [10]))))) := by
        intro hmem
        unfold dictKeys at hmem
        rw [List.map_map] at hmem
        obtain ⟨g, hg, he⟩ := List.mem_map.mp hmem
        exact (hkeys g hg).1 (by simpa using he.symm)
      rw [dictSet_fresh _ [] (.scalar msg) hk0]
      rfl
    rw [hset]
  · exact serialize_groupedDict gs msg hkeys (fun g hg => (hvals g hg).2)

/-- Witness for the C3 theorem: two `parent`-style repeated fields
(`t 1`, `t 2`) followed by a `gpgsig`-style folded field (`g a\n b`)
and the message `m`, i.e. the block `b"t 1\nt 2\ng a\n b\n\nm"`. -/
theorem message_roundtrip_grouped_witness :
    parseMsg (renderKvlm (groupedLines
        [([116], [[49], [50]]), ([103], [[97, 10, 32, 98]])]) [109]) =
      some (.ok (groupedDict [([116], [[49], [50]]), ([103], [[97, 10, 32, 98]])] [109])) ∧
    message_serialize (groupedDict
        [([116], [[49], [50]]), ([103], [[97, 10, 32, 98]])] [109]) =
      .ok (renderKvlm (groupedLines
        [([116], [[49], [50]]), ([103], [[97, 10, 32, 98]])]) [109]) :=
  message_roundtrip_grouped [([116], [[49], [50]]), ([103], [[97, 10, 32, 98]])] [109]
    (by decide) (by decide) (by decide)
